import Mathlib

/-!
Verification development for the LibPlot2D expression-evaluation core
(`ExpressionTree`) and the `DiscreteIntegral` signal-processing routine.

The repository ships `src/include/lp2d/utilities/math/expressionTree.h`
(declarations only) and `src/src/utilities/signals/integral.cpp` (full
implementation).  The body of `ExpressionTree` is not part of the source
tree, so the evaluator below is modelled from the specification's detailed
component design (classifier, shunting-yard converter, numeric/dataset
evaluator, symbolic evaluator and term simplifier); `DiscreteIntegral` is
translated directly from `integral.cpp`.

Machine doubles are modelled as a tagged IEEE-754-style value type `FVal`
over exact rationals: finite values carry a `ℚ`, and the special values
NaN, +inf and -inf are explicit constructors so that the specified
numeric-domain behaviour (division by zero, negative `sqrt`/`log`,
NaN propagation) is expressible exactly.
-/

namespace LibPlot2D

/-!
The rational arithmetic below is written out on numerators and
denominators through `mkRat` (the `Rat.add_def'`/`Rat.mul_def` normal
forms) purely so that concrete inputs reduce inside the kernel; each
operation provably coincides with the corresponding `ℚ` operation
(`qadd_eq` and friends, proved after the definitions).
-/

/-- Exact rational addition in `mkRat` normal form. -/
def qadd (a b : ℚ) : ℚ := mkRat (a.num * b.den + b.num * a.den) (a.den * b.den)

/-- Exact rational subtraction in `mkRat` normal form. -/
def qsub (a b : ℚ) : ℚ := mkRat (a.num * b.den - b.num * a.den) (a.den * b.den)

/-- Exact rational multiplication in `mkRat` normal form. -/
def qmul (a b : ℚ) : ℚ := mkRat (a.num * b.num) (a.den * b.den)

/-- Exact rational reciprocal in `mkRat` normal form. -/
def qinv (a : ℚ) : ℚ :=
  if 0 ≤ a.num then mkRat a.den a.num.toNat else mkRat (-(a.den : ℤ)) (-a.num).toNat

/-- Exact rational division. -/
def qdiv (a b : ℚ) : ℚ := qmul a (qinv b)

/-- Exact rational absolute value. -/
def qabs (a : ℚ) : ℚ := mkRat a.num.natAbs a.den

/-- Exact rational power by a natural exponent. -/
def qpowNat (a : ℚ) (n : ℕ) : ℚ := mkRat (a.num ^ n) (a.den ^ n)

/-- Exact rational power by an integer exponent (matching `zpow` on
`ℚ`, so zero to a negative power is zero). -/
def qzpow (a : ℚ) (k : ℤ) : ℚ :=
  if 0 ≤ k then qpowNat a k.toNat else qinv (qpowNat a (-k).toNat)

/-- Floor of a rational, by flooring integer division. -/
def qfloor (a : ℚ) : ℤ := a.num.fdiv a.den

/-- IEEE-754-style scalar value: NaN, the two infinities, or a finite
value represented exactly as a rational. -/
inductive FVal where
  | nan
  | pinf
  | ninf
  | fin (q : ℚ)
deriving DecidableEq, Repr

/-- IEEE negation. -/
def fneg : FVal → FVal
  | .nan => .nan
  | .pinf => .ninf
  | .ninf => .pinf
  | .fin q => .fin (-q)

/-- IEEE addition: NaN is absorbing, opposite infinities give NaN,
finite values add exactly. -/
def fadd : FVal → FVal → FVal
  | .nan, _ => .nan
  | _, .nan => .nan
  | .pinf, .ninf => .nan
  | .ninf, .pinf => .nan
  | .pinf, _ => .pinf
  | _, .pinf => .pinf
  | .ninf, _ => .ninf
  | _, .ninf => .ninf
  | .fin a, .fin b => .fin (qadd a b)

/-- IEEE subtraction, as addition of the negation. -/
def fsub (a b : FVal) : FVal := fadd a (fneg b)

/-- IEEE multiplication: NaN absorbing, infinity times zero is NaN,
signs of infinities combine as usual. -/
def fmul : FVal → FVal → FVal
  | .nan, _ => .nan
  | _, .nan => .nan
  | .pinf, .pinf => .pinf
  | .pinf, .ninf => .ninf
  | .ninf, .pinf => .ninf
  | .ninf, .ninf => .pinf
  | .pinf, .fin b => if 0 < b then .pinf else if b < 0 then .ninf else .nan
  | .fin a, .pinf => if 0 < a then .pinf else if a < 0 then .ninf else .nan
  | .ninf, .fin b => if 0 < b then .ninf else if b < 0 then .pinf else .nan
  | .fin a, .ninf => if 0 < a then .ninf else if a < 0 then .pinf else .nan
  | .fin a, .fin b => .fin (qmul a b)

/-- IEEE division: NaN absorbing, `x/0` is a signed infinity for `x ≠ 0`
and NaN for `0/0`, `inf/inf` is NaN, finite by infinite is zero. -/
def fdiv : FVal → FVal → FVal
  | .nan, _ => .nan
  | _, .nan => .nan
  | .pinf, .pinf => .nan
  | .pinf, .ninf => .nan
  | .ninf, .pinf => .nan
  | .ninf, .ninf => .nan
  | .pinf, .fin b => if 0 ≤ b then .pinf else .ninf
  | .ninf, .fin b => if 0 ≤ b then .ninf else .pinf
  | .fin _, .pinf => .fin 0
  | .fin _, .ninf => .fin 0
  | .fin a, .fin b =>
      if b = 0 then
        if a = 0 then .nan else if 0 < a then .pinf else .ninf
      else .fin (qdiv a b)

/-- Modelled from the spec: the value of `std::pow` at a non-integer
exponent is irrational in general and is not determined by the spec
(§4.3 fixes only the IEEE special-case behaviour), so this rational
model evaluates at the floor of the exponent.  No theorem depends on
this branch. -/
def ratPowNonInt (a b : ℚ) : ℚ := qzpow a (qfloor b)

/-- IEEE power on scalars: NaN absorbing (except the IEEE `x^0 = 1`
cases kept simple here), integer exponents computed exactly on the
rational base, `0` to a negative power giving `+inf`, and a negative
base with non-integer exponent giving NaN. -/
def fpow : FVal → FVal → FVal
  | .nan, _ => .nan
  | _, .nan => .nan
  | .pinf, .pinf => .pinf
  | .pinf, .ninf => .fin 0
  | .ninf, .pinf => .pinf
  | .ninf, .ninf => .fin 0
  | .pinf, .fin b => if 0 < b then .pinf else if b < 0 then .fin 0 else .fin 1
  | .ninf, .fin b =>
      if 0 < b then (if b.den = 1 ∧ b.num % 2 = 1 then .ninf else .pinf)
      else if b < 0 then .fin 0 else .fin 1
  | .fin a, .pinf =>
      if 1 < qabs a then .pinf else if qabs a < 1 then .fin 0 else .fin 1
  | .fin a, .ninf =>
      if 1 < qabs a then .fin 0 else if qabs a < 1 then .pinf else .fin 1
  | .fin a, .fin b =>
      if b.den = 1 then
        if a = 0 ∧ b.num < 0 then .pinf else .fin (qzpow a b.num)
      else if a < 0 then .nan else .fin (ratPowNonInt a b)

/-- Modelled from the spec: `std::sqrt` of a non-negative finite double
is irrational in general; only `sqrt` of a negative argument (NaN, §4.3)
is pinned by the spec.  Crude integer-square-root approximation used for
the unpinned finite branch; no theorem depends on its value. -/
def ratSqrtApprox (q : ℚ) : ℚ := mkRat (Nat.sqrt q.num.toNat) (Nat.sqrt q.den)

/-- IEEE square root: negative argument (including `-inf`) yields NaN. -/
def fsqrt : FVal → FVal
  | .nan => .nan
  | .pinf => .pinf
  | .ninf => .nan
  | .fin q => if q < 0 then .nan else .fin (ratSqrtApprox q)

/-- Modelled from the spec: the finite value of `std::log` is not pinned
by the spec, only its domain behaviour; floor-log₂ times `ln 2`
approximation used for the unpinned branch. -/
def ratLogApprox (q : ℚ) : ℚ := qmul (mkRat (Int.log 2 q) 1) (mkRat 693147 1000000)

/-- IEEE natural logarithm: negative argument yields NaN, zero yields
`-inf`. -/
def flog : FVal → FVal
  | .nan => .nan
  | .pinf => .pinf
  | .ninf => .nan
  | .fin q => if q < 0 then .nan else if q = 0 then .ninf else .fin (ratLogApprox q)

/-- IEEE absolute value. -/
def fabs : FVal → FVal
  | .nan => .nan
  | .pinf => .pinf
  | .ninf => .pinf
  | .fin q => .fin (qabs q)

/-- A plotted data set: parallel x and y sequences of doubles
(`dataset2D.h`; the two sequences have equal length by construction in
the C++ class). -/
structure Dataset2D where
  xData : List FVal
  yData : List FVal
deriving DecidableEq, Repr

/-- `Dataset2D::GetNumberOfPoints`. -/
def Dataset2D.numPoints (d : Dataset2D) : ℕ := d.xData.length

namespace DiscreteIntegral

/-- Loop body of `DiscreteIntegral::ComputeTimeHistory` (integral.cpp,
lines 47-51): running trapezoid accumulation.  `px, py` are the previous
point, `acc` the previous output value. -/
def integGo (px py acc : FVal) : List FVal → List FVal → List FVal
  | x :: xs, y :: ys =>
      let acc' := fadd acc (fmul (fmul (fsub x px) (.fin (mkRat 1 2))) (fadd y py))
      acc' :: integGo x y acc' xs ys
  | _, _ => []

/-- `DiscreteIntegral::ComputeTimeHistory` (integral.cpp, lines 38-54):
copies the input, returns the copy unchanged when there are fewer than
two points, otherwise zeroes `y[0]` and accumulates trapezoid areas. -/
def ComputeTimeHistory (data : Dataset2D) : Dataset2D :=
  if data.numPoints < 2 then data
  else
    match data.xData, data.yData with
    | x0 :: xs, y0 :: ys => { data with yData := .fin 0 :: integGo x0 y0 (.fin 0) xs ys }
    | _, _ => data

end DiscreteIntegral

/-- Modelled from the spec: `RootMeanSquare::ComputeTimeHistory` is
declared in `rms.h` with no implementation in the tree and the spec
describes it only as a "single-pass numeric reduction"; modelled as the
running root-mean-square of the y data.  No claim depends on it. -/
def RootMeanSquare.ComputeTimeHistory (data : Dataset2D) : Dataset2D :=
  { data with
    yData := (List.range data.yData.length).map (fun i =>
      let pre := data.yData.take (i + 1)
      fsqrt (fdiv ((pre.map (fun y => fmul y y)).foldl fadd (.fin 0)) (.fin (mkRat (i + 1) 1)))) }

/-- Modelled from the spec (§7): errors cross the boundary as
human-readable strings; the taxonomy given there is modelled as this
inductive so each failure mode is distinguishable. -/
inductive SolveError where
  | unbalancedParentheses
  | mismatchedParentheses
  | unrecognizedLexeme (c : Char)
  | invalidDatasetIndex (i : ℕ)
  | signalLengthMismatch
  | malformedExpression
  | functionNeedsDataset
  | unsupportedSymbolicOperation
deriving DecidableEq, Repr

/-- Classified lexeme (spec §3 "Token"): number, dataset reference,
builtin function, operator, parenthesis, or the symbolic variable. -/
inductive Token where
  | num (q : ℚ)
  | dref (i : ℕ)
  | fn (name : String)
  | op (c : Char)
  | openP
  | closeP
  | symVar
deriving DecidableEq, Repr

namespace ExpressionTree

/-- Numeric value of a decimal digit character. -/
def digitVal (c : Char) : ℕ := c.toNat - '0'.toNat

/-- Reads a maximal run of decimal digits, accumulating their value,
and returns the value together with the unread remainder. -/
def readDigits (acc : ℕ) : List Char → ℕ × List Char
  | c :: cs => if c.isDigit then readDigits (acc * 10 + digitVal c) cs else (acc, c :: cs)
  | [] => (acc, [])

/-- Unsigned decimal literal (spec §4.1): one or more digits, optionally
followed by a decimal point and one or more fraction digits.  Returns
the exact rational value and the unread remainder. -/
def NextIsNumberUnsigned (cs : List Char) : Option (ℚ × List Char) :=
  match cs with
  | [] => none
  | c :: _ =>
      if c.isDigit then
        match readDigits 0 cs with
        | (n, '.' :: c2 :: rest2) =>
            if c2.isDigit then
              some (mkRat
                  (n * 10 ^ ((c2 :: rest2).takeWhile Char.isDigit).length
                    + (readDigits 0 (c2 :: rest2)).1)
                  (10 ^ ((c2 :: rest2).takeWhile Char.isDigit).length),
                (readDigits 0 (c2 :: rest2)).2)
            else some ((n : ℚ), '.' :: c2 :: rest2)
        | (n, rest) => some ((n : ℚ), rest)
      else none

/-- Modelled from the spec (§4.1): a signed or unsigned decimal number;
the sign is only accepted when the previous token was an operator.
Returns the parsed value and the unread remainder. -/
def NextIsNumber (cs : List Char) (lastWasOperator : Bool) : Option (ℚ × List Char) :=
  match cs with
  | '-' :: rest =>
      if lastWasOperator then
        match NextIsNumberUnsigned rest with
        | some (q, r) => some (-q, r)
        | none => none
      else none
  | '+' :: rest =>
      if lastWasOperator then NextIsNumberUnsigned rest else none
  | _ => NextIsNumberUnsigned cs

/-- Modelled from the spec (§4.1): a dataset reference of the form
`[<non-negative integer>]`. -/
def NextIsDataset (cs : List Char) : Option (ℕ × List Char) :=
  match cs with
  | '[' :: c :: rest =>
      if c.isDigit then
        match readDigits 0 (c :: rest) with
        | (n, ']' :: rest3) => some (n, rest3)
        | _ => none
      else none
  | _ => none

/-- Modelled from the spec (§4.1): the fixed builtin function-name set.
The spec gives the set as an open example list; this model keeps the
functions whose semantics the spec constrains (`sqrt`, `log`, `abs`)
plus the dataset-only reductions (`integral`, `rms`). -/
def functionNames : List String := ["integral", "rms", "sqrt", "log", "abs"]

/-- `ExpressionTree::BeginningMatchesNoCase`: case-insensitive match of
`target` against the beginning of the input; returns the unread
remainder on success. -/
def matchesNoCase : List Char → List Char → Option (List Char)
  | [], cs => some cs
  | _ :: _, [] => none
  | t :: ts, c :: cs => if c.toLower = t then matchesNoCase ts cs else none

/-- First function name in `nms` matching the beginning of the input,
with the unread remainder. -/
def findFn : List String → List Char → Option (String × List Char)
  | [], _ => none
  | nm :: nms, cs =>
      match matchesNoCase nm.toList cs with
      | some r => some (nm, r)
      | none => findFn nms cs

/-- Modelled from the spec (§4.1): case-insensitive match against the
fixed builtin function-name set. -/
def NextIsFunction (cs : List Char) : Option (String × List Char) :=
  findFn functionNames cs

/-- The single-character operator set (spec §4.1). -/
def opChars : List Char := ['+', '-', '*', '/', '^']

/-- Modelled from the spec (§4.1): classify the next lexeme.  Tried in
order: number, dataset reference, function name, operator, parentheses,
symbolic variable; `none` means an unrecognized lexeme. -/
def Classify (cs : List Char) (lastWasOperator : Bool) : Option (Token × List Char) :=
  match NextIsNumber cs lastWasOperator with
  | some (q, r) => some (.num q, r)
  | none =>
  match NextIsDataset cs with
  | some (i, r) => some (.dref i, r)
  | none =>
  match NextIsFunction cs with
  | some (nm, r) => some (.fn nm, r)
  | none =>
  match cs with
  | c :: r =>
      if c ∈ opChars then some (.op c, r)
      else if c = '(' then some (.openP, r)
      else if c = ')' then some (.closeP, r)
      else if c = 's' then some (.symVar, r)
      else none
  | [] => none

/-- Whether a token sets the "last token was an operator" flag for
unary-sign disambiguation (spec §3 ParserState): true after operators,
function names and `(`; false after operands and `)`. -/
def setsLastWasOperator : Token → Bool
  | .num _ => false
  | .dref _ => false
  | .symVar => false
  | .closeP => false
  | .op _ => true
  | .openP => true
  | .fn _ => true

/-- Fuel-indexed tokenization loop; the classifier consumes at least
one character per step (`Classify_length`), so fuel equal to the input
length always suffices and the fuel-exhausted branch is unreachable
from `Tokenize`. -/
def TokenizeF : ℕ → List Char → Bool → Except SolveError (List Token)
  | _, [], _ => .ok []
  | 0, c :: _, _ => .error (.unrecognizedLexeme c)
  | fuel + 1, c :: cs', b =>
      match Classify (c :: cs') b with
      | none => .error (.unrecognizedLexeme c)
      | some (t, rest) =>
          match TokenizeF fuel rest (setsLastWasOperator t) with
          | .error e => .error e
          | .ok ts => .ok (t :: ts)

/-- Modelled from the spec (§4.2): tokenize the whole expression left to
right with the classifier, tracking the last-was-operator flag; an
unrecognized lexeme aborts with a syntax error. -/
def Tokenize (cs : List Char) (lastWasOperator : Bool) :
    Except SolveError (List Token) :=
  TokenizeF cs.length cs lastWasOperator

/-- Operator-stack entry during shunting-yard conversion (spec §3
ParserState): a pending operator, an open parenthesis, or a pending
function name. -/
inductive StackE where
  | sop (c : Char)
  | sparen
  | sfn (name : String)
deriving DecidableEq, Repr

/-- `ExpressionTree::GetPrecedence` (modelled from the spec §4.2):
`+`/`-` lowest, `*`/`/` middle, `^` highest. -/
def GetPrecedence : Char → ℕ
  | '+' => 2
  | '-' => 2
  | '*' => 3
  | '/' => 3
  | '^' => 4
  | _ => 0

/-- `ExpressionTree::IsLeftAssociative` (modelled from the spec §4.2):
every operator except the power operator is left-associative. -/
def IsLeftAssociative (c : Char) : Bool := c ≠ '^'

/-- `ExpressionTree::OperatorShift` (modelled from the spec §4.2): the
stacked entry pops to the output when it is an operator of precedence ≥
the incoming operator's (strictly > when the incoming operator is the
right-associative `^`). -/
def OperatorShift (stackTop : StackE) (c : Char) : Bool :=
  match stackTop with
  | .sop t =>
      if IsLeftAssociative c then GetPrecedence c ≤ GetPrecedence t
      else GetPrecedence c < GetPrecedence t
  | _ => false

/-- `ExpressionTree::ProcessOperator` (modelled from the spec §4.2):
pop stacked operators to the output while `OperatorShift` holds, then
push the incoming operator.  Returns the emitted output tokens and the
new stack. -/
def ProcessOperator (c : Char) : List StackE → List Token × List StackE
  | .sop t :: rest =>
      if OperatorShift (.sop t) c then
        let pr := ProcessOperator c rest
        (.op t :: pr.1, pr.2)
      else ([], .sop c :: .sop t :: rest)
  | st => ([], .sop c :: st)

/-- `ExpressionTree::ProcessCloseParenthese` (modelled from the spec
§4.2): pop entries to the output until the matching `(`; exhausting the
stack first is a mismatched-parenthesis failure (guards inputs like
`)(`); after discarding the `(`, a function name on the new top pops to
the output as well. -/
def ProcessCloseParenthese : List StackE → Except SolveError (List Token × List StackE)
  | [] => .error .mismatchedParentheses
  | .sparen :: rest =>
      match rest with
      | .sfn nm :: rest2 => .ok ([.fn nm], rest2)
      | _ => .ok ([], rest)
  | .sop t :: rest =>
      match ProcessCloseParenthese rest with
      | .error e => .error e
      | .ok (out, st) => .ok (.op t :: out, st)
  | .sfn nm :: rest =>
      match ProcessCloseParenthese rest with
      | .error e => .error e
      | .ok (out, st) => .ok (.fn nm :: out, st)

/-- `ExpressionTree::EmptyStackToQueue` (modelled from the spec §4.2):
at end of scan the remaining stack pops to the output in order; a
leftover `(` is a parenthesis failure. -/
def EmptyStackToQueue : List StackE → Except SolveError (List Token)
  | [] => .ok []
  | .sparen :: _ => .error .mismatchedParentheses
  | .sop t :: rest =>
      match EmptyStackToQueue rest with
      | .error e => .error e
      | .ok out => .ok (.op t :: out)
  | .sfn nm :: rest =>
      match EmptyStackToQueue rest with
      | .error e => .error e
      | .ok out => .ok (.fn nm :: out)

/-- Modelled from the spec (§4.2): the shunting-yard loop over the
token stream.  Operand tokens go straight to the output queue, function
names and `(` push, operators shift by precedence, `)` unwinds to the
matching `(`. -/
def ShuntGo : List Token → List StackE → Except SolveError (List Token)
  | [], st => EmptyStackToQueue st
  | t :: ts, st =>
      match t with
      | .num q =>
          match ShuntGo ts st with
          | .error e => .error e
          | .ok out => .ok (.num q :: out)
      | .dref i =>
          match ShuntGo ts st with
          | .error e => .error e
          | .ok out => .ok (.dref i :: out)
      | .symVar =>
          match ShuntGo ts st with
          | .error e => .error e
          | .ok out => .ok (.symVar :: out)
      | .fn nm => ShuntGo ts (.sfn nm :: st)
      | .openP => ShuntGo ts (.sparen :: st)
      | .op c =>
          let pr := ProcessOperator c st
          match ShuntGo ts pr.2 with
          | .error e => .error e
          | .ok out => .ok (pr.1 ++ out)
      | .closeP =>
          match ProcessCloseParenthese st with
          | .error e => .error e
          | .ok (out, st') =>
              match ShuntGo ts st' with
              | .error e => .error e
              | .ok rest => .ok (out ++ rest)

/-- `ExpressionTree::ParenthesesBalanced` (modelled from the spec §4.2):
depth-counter pre-pass checking global parenthesis balance. -/
def parenDepth : ℤ → List Char → ℤ
  | d, [] => d
  | d, c :: cs => parenDepth (if c = '(' then d + 1 else if c = ')' then d - 1 else d) cs

/-- The balance pre-pass: total depth change over the string is zero. -/
def ParenthesesBalanced (cs : List Char) : Bool := parenDepth 0 cs = 0

/-- `ExpressionTree::ParseExpression` (modelled from the spec §4.2):
balance pre-pass, then tokenize, then shunting-yard conversion to a
postfix token queue. -/
def ParseExpression (cs : List Char) : Except SolveError (List Token) :=
  if ParenthesesBalanced cs then
    match Tokenize cs true with
    | .error e => .error e
    | .ok ts => ShuntGo ts []
  else .error .unbalancedParentheses

/-- Evaluator operand (spec §3 Operand, numeric mode): a scalar or an
owned signal clone. -/
inductive NOperand where
  | scalar (v : FVal)
  | set (d : Dataset2D)
deriving DecidableEq, Repr

/-- `ExpressionTree::FunctionRequiresDataset` (modelled from the spec
§4.3): the holistic reductions only apply to signals. -/
def FunctionRequiresDataset (nm : String) : Bool := nm = "integral" ∨ nm = "rms"

/-- `ExpressionTree::ApplyFunction` on a scalar (modelled from the spec
§4.3): elementwise builtins on a scalar value. -/
def ApplyFunctionScalar : String → FVal → FVal
  | "sqrt", v => fsqrt v
  | "log", v => flog v
  | "abs", v => fabs v
  | _, v => v

/-- `ExpressionTree::ApplyFunction` on a signal (modelled from the spec
§4.3): elementwise builtins map over the y data; `integral` and `rms`
are the holistic time-history reductions. -/
def ApplyFunctionSet (nm : String) (d : Dataset2D) : Dataset2D :=
  if nm = "integral" then DiscreteIntegral.ComputeTimeHistory d
  else if nm = "rms" then RootMeanSquare.ComputeTimeHistory d
  else { d with yData := d.yData.map (ApplyFunctionScalar nm) }

/-- `ExpressionTree::ApplyOperation` on two scalars (modelled from the
spec §4.3): IEEE-754 arithmetic, total — numeric-domain conditions are
never errors. -/
def ApplyOperationScalar : Char → FVal → FVal → FVal
  | '+', a, b => fadd a b
  | '-', a, b => fsub a b
  | '*', a, b => fmul a b
  | '/', a, b => fdiv a b
  | '^', a, b => fpow a b
  | _, _, b => b

/-- `ExpressionTree::ApplyOperation` on two signals (modelled from the
spec §4.3): requires identical point counts — a mismatch is a
`SignalLengthMismatch` failure, never a resample or truncation; the
result keeps the first signal's x data and combines y data
index-for-index. -/
def ApplyOperationSetSet (c : Char) (first second : Dataset2D) :
    Except SolveError Dataset2D :=
  if first.numPoints = second.numPoints then
    .ok { xData := first.xData,
          yData := List.zipWith (ApplyOperationScalar c) first.yData second.yData }
  else .error .signalLengthMismatch

/-- `ExpressionTree::ApplyOperation` signal-scalar (modelled from the
spec §4.3): elementwise against the scalar on the right. -/
def ApplyOperationSetScalar (c : Char) (first : Dataset2D) (second : FVal) : Dataset2D :=
  { first with yData := first.yData.map (fun y => ApplyOperationScalar c y second) }

/-- `ExpressionTree::ApplyOperation` scalar-signal (modelled from the
spec §4.3): elementwise against the scalar on the left. -/
def ApplyOperationScalarSet (c : Char) (first : FVal) (second : Dataset2D) : Dataset2D :=
  { second with yData := second.yData.map (fun y => ApplyOperationScalar c first y) }

/-- Binary-operator dispatch over the four operand-type combinations
(spec §4.3). -/
def ApplyOperationN (c : Char) : NOperand → NOperand → Except SolveError NOperand
  | .scalar a, .scalar b => .ok (.scalar (ApplyOperationScalar c a b))
  | .set a, .scalar b => .ok (.set (ApplyOperationSetScalar c a b))
  | .scalar a, .set b => .ok (.set (ApplyOperationScalarSet c a b))
  | .set a, .set b =>
      match ApplyOperationSetSet c a b with
      | .error e => .error e
      | .ok d => .ok (.set d)

/-- `ExpressionTree::GetSetFromList` (modelled from the spec §4.3):
clone the referenced signal and scale its x data by the caller-supplied
x-axis factor. -/
def GetSetFromList (regs : List Dataset2D) (xf : ℚ) (i : Fin regs.length) : Dataset2D :=
  { xData := (regs.get i).xData.map (fun x => fmul x (.fin xf)),
    yData := (regs.get i).yData }

/-- `ExpressionTree::EvaluateUnaryOperator` (modelled from the spec
§4.1/§4.3 unary negation): with a single stacked operand, `-` applies
as `0 - x`. -/
def EvaluateUnary (c : Char) (v : NOperand) : Except SolveError NOperand :=
  if c = '-' then
    match v with
    | .scalar a => .ok (.scalar (fsub (.fin 0) a))
    | .set d => .ok (.set (ApplyOperationScalarSet '-' (.fin 0) d))
  else .error .malformedExpression

/-- `ExpressionTree::EvaluateNext` (modelled from the spec §4.3): one
postfix token against the operand stack. -/
def EvaluateNextN (regs : List Dataset2D) (xf : ℚ) :
    Token → List NOperand → Except SolveError (List NOperand)
  | .num q, st => .ok (.scalar (.fin q) :: st)
  | .dref i, st =>
      if h : i < regs.length then .ok (.set (GetSetFromList regs xf ⟨i, h⟩) :: st)
      else .error (.invalidDatasetIndex i)
  | .symVar, _ => .error .malformedExpression
  | .fn nm, st =>
      match st with
      | [] => .error .malformedExpression
      | .scalar v :: rest =>
          if FunctionRequiresDataset nm then .error .functionNeedsDataset
          else .ok (.scalar (ApplyFunctionScalar nm v) :: rest)
      | .set d :: rest => .ok (.set (ApplyFunctionSet nm d) :: rest)
  | .op c, st =>
      match st with
      | b :: a :: rest =>
          match ApplyOperationN c a b with
          | .error e => .error e
          | .ok v => .ok (v :: rest)
      | [v] =>
          match EvaluateUnary c v with
          | .error e => .error e
          | .ok r => .ok [r]
      | [] => .error .malformedExpression
  | .openP, _ => .error .malformedExpression
  | .closeP, _ => .error .malformedExpression

/-- Fold of `EvaluateNextN` over the postfix queue. -/
def EvaluateQueueN (regs : List Dataset2D) (xf : ℚ) :
    List Token → List NOperand → Except SolveError (List NOperand)
  | [], st => .ok st
  | t :: ts, st =>
      match EvaluateNextN regs xf t st with
      | .error e => .error e
      | .ok st' => EvaluateQueueN regs xf ts st'

/-- `ExpressionTree::EvaluateExpression` (modelled from the spec §4.3):
consume the postfix queue; exactly one operand must remain. -/
def EvaluateExpressionN (regs : List Dataset2D) (xf : ℚ) (post : List Token) :
    Except SolveError NOperand :=
  match EvaluateQueueN regs xf post [] with
  | .error e => .error e
  | .ok [r] => .ok r
  | .ok _ => .error .malformedExpression

/-- `ExpressionTree::Solve` (numeric mode, modelled from the spec §2
and §4): strip whitespace, check parenthesis balance, convert to
postfix, evaluate against the dataset registry. -/
def Solve (expression : String) (regs : List Dataset2D) (xAxisFactor : ℚ) :
    Except SolveError NOperand :=
  let cs := expression.toList.filter (fun c => c ≠ ' ')
  match ParseExpression cs with
  | .error e => .error e
  | .ok post => EvaluateExpressionN regs xAxisFactor post

/-- A monomial in the single symbolic variable (spec §3 Monomial):
`(coefficient, power)`. -/
abbrev Mono : Type := ℚ × ℤ

/-- Modelled from the spec (§4.4): the raw symbolic term-string built
by the textual operations is represented structurally as the ordered
list of its signed monomial summands; `BreakApartTerms` and the
per-term part of `FindPowersAndCoefficients` correspond to reading this
list off. -/
inductive SOperand where
  | sc (q : ℚ)
  | term (t : List Mono)

/-- Scalar arithmetic in symbolic mode (spec §4.4: binary ops with two
scalars compute directly). -/
def ApplyOperationQ : Char → ℚ → ℚ → ℚ
  | '+', a, b => qadd a b
  | '-', a, b => qsub a b
  | '*', a, b => qmul a b
  | '/', a, b => qdiv a b
  | '^', a, b => if b.den = 1 then qzpow a b.num else ratPowNonInt a b
  | _, _, b => b

/-- Negate every summand of a raw term. -/
def negTerm (t : List Mono) : List Mono := t.map (fun m => (-m.1, m.2))

/-- `ExpressionTree::StringAdd` (term + scalar, modelled from the spec
§4.4): concatenation preserving sign — the scalar joins as a power-zero
summand. -/
def StringAddTS (t : List Mono) (b : ℚ) : List Mono := t ++ [(b, 0)]

/-- `ExpressionTree::StringAdd` (scalar + term). -/
def StringAddST (a : ℚ) (t : List Mono) : List Mono := (a, 0) :: t

/-- `ExpressionTree::StringSubtract` (term - scalar). -/
def StringSubtractTS (t : List Mono) (b : ℚ) : List Mono := t ++ [(-b, 0)]

/-- `ExpressionTree::StringSubtract` (scalar - term). -/
def StringSubtractST (a : ℚ) (t : List Mono) : List Mono := (a, 0) :: negTerm t

/-- `ExpressionTree::StringMultiply` (term by scalar, modelled from the
spec §4.4): scales every coefficient. -/
def StringMultiplyTS (t : List Mono) (b : ℚ) : List Mono :=
  t.map (fun m => (qmul m.1 b, m.2))

/-- `ExpressionTree::StringMultiply` (term by term, modelled from the
spec §4.4): distributes across additive sub-terms, multiplying
coefficients and summing exponents. -/
def StringMultiplyTT (t1 t2 : List Mono) : List Mono :=
  t1.bind (fun m1 => t2.map (fun m2 => (qmul m1.1 m2.1, m1.2 + m2.2)))

/-- Division of a term by a scalar (modelled from the spec §4.4: `/` by
a scalar divides coefficients). -/
def StringDivideTS (t : List Mono) (b : ℚ) : List Mono :=
  t.map (fun m => (qdiv m.1 b, m.2))

/-- `ExpressionTree::StringPower` (term to a scalar integer power,
modelled from the spec §4.4): multiplies the variable's exponent by the
integer. -/
def StringPowerTS (t : List Mono) (k : ℤ) : List Mono :=
  t.map (fun m => (m.1, m.2 * k))

/-- Symbolic binary-operator dispatch (modelled from the spec §4.4):
scalar-scalar computes directly; term combinations use the textual
rules; division by a symbolic denominator and exponentiation by a
non-integer or symbolic exponent fail `UnsupportedSymbolicOperation`. -/
def ApplyOperationS : Char → SOperand → SOperand → Except SolveError SOperand
  | c, .sc a, .sc b => .ok (.sc (ApplyOperationQ c a b))
  | c, .term t, .sc b =>
      match c with
      | '+' => .ok (.term (StringAddTS t b))
      | '-' => .ok (.term (StringSubtractTS t b))
      | '*' => .ok (.term (StringMultiplyTS t b))
      | '/' => .ok (.term (StringDivideTS t b))
      | '^' =>
          if b.den = 1 then .ok (.term (StringPowerTS t b.num))
          else .error .unsupportedSymbolicOperation
      | _ => .error .malformedExpression
  | c, .sc a, .term t =>
      match c with
      | '+' => .ok (.term (StringAddST a t))
      | '-' => .ok (.term (StringSubtractST a t))
      | '*' => .ok (.term (StringMultiplyTS t a))
      | '/' => .error .unsupportedSymbolicOperation
      | '^' => .error .unsupportedSymbolicOperation
      | _ => .error .malformedExpression
  | c, .term t1, .term t2 =>
      match c with
      | '+' => .ok (.term (t1 ++ t2))
      | '-' => .ok (.term (t1 ++ negTerm t2))
      | '*' => .ok (.term (StringMultiplyTT t1 t2))
      | '/' => .error .unsupportedSymbolicOperation
      | '^' => .error .unsupportedSymbolicOperation
      | _ => .error .malformedExpression

/-- Unary minus in symbolic mode. -/
def EvaluateUnaryS (c : Char) (v : SOperand) : Except SolveError SOperand :=
  if c = '-' then
    match v with
    | .sc a => .ok (.sc (-a))
    | .term t => .ok (.term (negTerm t))
  else .error .malformedExpression

/-- One postfix token against the symbolic operand stack (modelled from
the spec §4.4): numbers push scalars, the variable pushes the monomial
`s`, operators dispatch. -/
def EvaluateNextS : Token → List SOperand → Except SolveError (List SOperand)
  | .num q, st => .ok (.sc q :: st)
  | .symVar, st => .ok (.term [(1, 1)] :: st)
  | .dref _, _ => .error .malformedExpression
  | .fn _, _ => .error .unsupportedSymbolicOperation
  | .op c, st =>
      match st with
      | b :: a :: rest =>
          match ApplyOperationS c a b with
          | .error e => .error e
          | .ok v => .ok (v :: rest)
      | [v] =>
          match EvaluateUnaryS c v with
          | .error e => .error e
          | .ok r => .ok [r]
      | [] => .error .malformedExpression
  | .openP, _ => .error .malformedExpression
  | .closeP, _ => .error .malformedExpression

/-- Fold of `EvaluateNextS` over the postfix queue. -/
def EvaluateQueueS : List Token → List SOperand → Except SolveError (List SOperand)
  | [], st => .ok st
  | t :: ts, st =>
      match EvaluateNextS t st with
      | .error e => .error e
      | .ok st' => EvaluateQueueS ts st'

/-- The raw summand list of a fully reduced symbolic operand: a final
scalar is the constant term. -/
def rawTerms : SOperand → List Mono
  | .sc q => [(q, 0)]
  | .term t => t

/-- Total coefficient carried by power `p` in a raw summand list. -/
def coefficientOf (L : List Mono) (p : ℤ) : ℚ :=
  ((L.filter (fun m => m.2 = p)).map Prod.fst).foldr qadd 0

/-- `ExpressionTree::FindPowersAndCoefficients` together with the
combine step (modelled from the spec §4.4 steps 2-3): the distinct
powers, in descending order, each with its summed coefficient. -/
def FindPowersAndCoefficients (L : List Mono) : List Mono :=
  (((L.map Prod.snd).dedup).insertionSort (fun a b => b ≤ a)).map
    (fun p => (coefficientOf L p, p))

/-- Spec §4.4 step 4: zero-coefficient powers are dropped. -/
def dropZeroTerms (L : List Mono) : List Mono := L.filter (fun m => m.1 ≠ 0)

/-- The whole term-simplification pass (spec §4.4 steps 1-4). -/
def simplifyTerms (L : List Mono) : List Mono :=
  dropZeroTerms (FindPowersAndCoefficients L)

/-- Decimal digit character of a value below ten. -/
def digitChar (n : ℕ) : Char := Char.ofNat ('0'.toNat + n)

/-- Decimal digit characters of a natural number, most significant
first, accumulated onto `acc`; fuel-indexed structural loop (fuel equal
to the value always suffices since the value shrinks by a factor of
ten each step). -/
def natCharsF (fuel n : ℕ) (acc : List Char) : List Char :=
  if n < 10 then digitChar n :: acc
  else
    match fuel with
    | 0 => acc
    | f + 1 => natCharsF f (n / 10) (digitChar (n % 10) :: acc)

/-- Decimal rendering of a natural number. -/
def natChars (n : ℕ) : List Char := natCharsF n n []

/-- Decimal rendering of an integer (used for powers). -/
def intChars (p : ℤ) : List Char :=
  if p < 0 then '-' :: natChars p.natAbs else natChars p.natAbs

/-- Modelled from the spec (§4.4): rendering of the absolute value of a
coefficient.  The C++ implementation prints doubles with a fixed printf
precision; this exact model renders a non-integer rational as
`numerator/denominator`, which re-reads as the same value. -/
def ratAbsChars (c : ℚ) : List Char :=
  natChars c.num.natAbs ++ (if c.den = 1 then [] else '/' :: natChars c.den)

/-- `ExpressionTree::AddToExpressionString` for one term (modelled from
the spec §4.4 step 5): coefficient `1`/`-1` omits the numeral except at
power zero, power zero omits the variable, power one omits the
exponent. -/
def termBodyChars (c : ℚ) (p : ℤ) : List Char :=
  if p = 0 then ratAbsChars c
  else
    (if c = 1 ∨ c = -1 then [] else ratAbsChars c ++ ['*']) ++
      's' :: (if p = 1 then [] else '^' :: intChars p)

/-- Rendering of the second and later terms, joined with `" + "` or
`" - "` by sign (spec §4.4 step 5). -/
def renderRest : List Mono → List Char
  | [] => []
  | (c, p) :: rest =>
      (if c < 0 then [' ', '-', ' '] else [' ', '+', ' ']) ++
        termBodyChars c p ++ renderRest rest

/-- Canonical polynomial rendering (spec §4.4 step 5); an empty term
set renders as `"0"`. -/
def renderPolyChars : List Mono → List Char
  | [] => ['0']
  | (c, p) :: rest =>
      (if c < 0 then ['-'] else []) ++ termBodyChars c p ++ renderRest rest

/-- Canonical polynomial rendering as a string. -/
def renderPoly (L : List Mono) : String := ⟨renderPolyChars L⟩

/-- `ExpressionTree::Solve` (symbolic mode, modelled from the spec §2,
§4.4): strip whitespace, convert to postfix, evaluate over the symbolic
operand stack, then simplify and render the canonical polynomial. -/
def SolveSymbolic (expression : String) : Except SolveError String :=
  let cs := expression.toList.filter (fun c => c ≠ ' ')
  match ParseExpression cs with
  | .error e => .error e
  | .ok post =>
      match EvaluateQueueS post [] with
      | .error e => .error e
      | .ok [op] => .ok (renderPoly (simplifyTerms (rawTerms op)))
      | .ok _ => .error .malformedExpression


/-- Reference abstract syntax of numeric infix arithmetic over
unsigned decimal literals: the spec-side notion of "standard infix
arithmetic semantics" (spec §8), including explicit parenthesization. -/
inductive AExpr where
  | lit (n : ℕ)
  | paren (a : AExpr)
  | add (a b : AExpr)
  | sub (a b : AExpr)
  | mul (a b : AExpr)
  | div (a b : AExpr)
  | pow (a b : AExpr)

/-- Reference denotation: the standard meaning of an infix expression,
computed straight off the tree with the IEEE scalar operations. -/
def AExpr.denote : AExpr → FVal
  | .lit n => .fin n
  | .paren a => a.denote
  | .add a b => fadd a.denote b.denote
  | .sub a b => fsub a.denote b.denote
  | .mul a b => fmul a.denote b.denote
  | .div a b => fdiv a.denote b.denote
  | .pow a b => fpow a.denote b.denote

/-- Precedence of the root of a reference expression (atoms and
parenthesized groups bind tightest). -/
def AExpr.prec : AExpr → ℕ
  | .lit _ => 5
  | .paren _ => 5
  | .add _ _ => 2
  | .sub _ _ => 2
  | .mul _ _ => 3
  | .div _ _ => 3
  | .pow _ _ => 4

/-- Print-tree: the exact token-level shape of a printed expression —
operand leaves, a leading unary operator, bare binary nodes, and
parenthesized groups.  Both the numeric reference expressions and the
canonical polynomial renderings elaborate into this shape. -/
inductive PTree where
  | leaf (t : Token)
  | unary (c : Char) (a : PTree)
  | node (c : Char) (a : PTree) (b : PTree)
  | wrap (a : PTree)

/-- Character-level printing of a print-tree.  Integer-valued number
leaves print as optionally-signed decimal numerals, the symbolic
variable as `s`. -/
def printP : PTree → List Char
  | .leaf (.num q) => if q.num < 0 then '-' :: natChars q.num.natAbs else natChars q.num.natAbs
  | .leaf .symVar => ['s']
  | .leaf _ => []
  | .unary c a => c :: printP a
  | .node c a b => printP a ++ c :: printP b
  | .wrap a => '(' :: (printP a ++ [')'])

/-- The token stream of a printed tree. -/
def tokensOfP : PTree → List Token
  | .leaf t => [t]
  | .unary c a => .op c :: tokensOfP a
  | .node c a b => tokensOfP a ++ .op c :: tokensOfP b
  | .wrap a => .openP :: (tokensOfP a ++ [.closeP])

/-- The postfix queue the shunting-yard conversion is expected to
produce for a printed tree. -/
def postfixOfP : PTree → List Token
  | .leaf t => [t]
  | .unary c a => postfixOfP a ++ [.op c]
  | .node c a b => postfixOfP a ++ (postfixOfP b ++ [.op c])
  | .wrap a => postfixOfP a

/-- Operator characters of a tree that are exposed to the surrounding
operator stack (nothing inside parentheses is). -/
def exposedOps : PTree → List Char
  | .leaf _ => []
  | .wrap _ => []
  | .unary c a => c :: exposedOps a
  | .node c a b => exposedOps a ++ c :: exposedOps b

/-- Operators a tree leaves behind on the operator stack after its
tokens are consumed (innermost last, head popped first). -/
def resP : PTree → List Char
  | .leaf _ => []
  | .wrap _ => []
  | .unary c a => resP a ++ [c]
  | .node c _ b => resP b ++ [c]

/-- Output-queue tokens a tree flushes while its tokens are consumed. -/
def flushP : PTree → List Token
  | .leaf t => [t]
  | .wrap a => flushP a ++ (resP a).map Token.op
  | .unary _ a => flushP a
  | .node _ a b => flushP a ++ ((resP a).map Token.op ++ flushP b)

/-- Operand leaves: integer-valued numbers and the symbolic variable. -/
def OperandTok : Token → Bool
  | .num q => q.den == 1
  | .symVar => true
  | _ => false

/-- Whether the first printed character of a tree is the symbolic
variable (the only shape a leading unary minus is applied to). -/
def startsWithS : PTree → Bool
  | .leaf .symVar => true
  | .node _ a _ => startsWithS a
  | _ => false

/-- Well-formedness of a print-tree: operand leaves only, operators
from the fixed set, every residual operator of a left child shifts out
on the parent operator, and no operator exposed by a right operand (or
under a unary operator) shifts the parent off the stack. -/
def TreeOK : PTree → Bool
  | .leaf t => OperandTok t
  | .wrap a => TreeOK a
  | .unary c a =>
      decide (c ∈ opChars) && TreeOK a && startsWithS a &&
        (exposedOps a).all (fun y => !OperatorShift (.sop c) y)
  | .node c a b =>
      decide (c ∈ opChars) && TreeOK a && TreeOK b &&
        (resP a).all (fun x => OperatorShift (.sop x) c) &&
        (exposedOps b).all (fun y => !OperatorShift (.sop c) y)

/-- Continuations a printed tree may be followed by: end of input, an
operator character, or a closing parenthesis. -/
def restOK : List Char → Bool
  | [] => true
  | c :: _ => decide (c ∈ opChars) || c == ')'

/-- Precedence-directed elaboration of a reference expression into a
print-tree: a child is parenthesized exactly when its precedence makes
the bare printing ambiguous (strictly lower on the associative side,
lower-or-equal on the other). -/
def treeOfA : AExpr → PTree
  | .lit n => .leaf (.num n)
  | .paren a => .wrap (treeOfA a)
  | .add a b =>
      .node '+' (if a.prec < 2 then .wrap (treeOfA a) else treeOfA a)
        (if b.prec ≤ 2 then .wrap (treeOfA b) else treeOfA b)
  | .sub a b =>
      .node '-' (if a.prec < 2 then .wrap (treeOfA a) else treeOfA a)
        (if b.prec ≤ 2 then .wrap (treeOfA b) else treeOfA b)
  | .mul a b =>
      .node '*' (if a.prec < 3 then .wrap (treeOfA a) else treeOfA a)
        (if b.prec ≤ 3 then .wrap (treeOfA b) else treeOfA b)
  | .div a b =>
      .node '/' (if a.prec < 3 then .wrap (treeOfA a) else treeOfA a)
        (if b.prec ≤ 3 then .wrap (treeOfA b) else treeOfA b)
  | .pow a b =>
      .node '^' (if a.prec ≤ 4 then .wrap (treeOfA a) else treeOfA a)
        (if b.prec < 4 then .wrap (treeOfA b) else treeOfA b)

/-- The printed string of a reference expression. -/
def printA (e : AExpr) : String := ⟨printP (treeOfA e)⟩

/-- Trees whose leaves are all numeric literals and which use no unary
operator (the image of the numeric reference printer). -/
def NumOnly : PTree → Bool
  | .leaf (.num _) => true
  | .leaf _ => false
  | .unary _ _ => false
  | .node _ a b => NumOnly a && NumOnly b
  | .wrap a => NumOnly a

/-- Scalar denotation of a numeric print-tree. -/
def denoteP : PTree → FVal
  | .leaf (.num q) => .fin q
  | .leaf _ => .nan
  | .unary _ a => denoteP a
  | .node c a b => ApplyOperationScalar c (denoteP a) (denoteP b)
  | .wrap a => denoteP a


/-- Print-tree of the absolute value of a coefficient (the
`ratAbsChars` rendering re-read as an expression): an integer-valued
coefficient prints as one literal, any other as
`numerator/denominator`. -/
def ratAbsTree (c : ℚ) : PTree :=
  if c.den = 1 then .leaf (.num (c.num.natAbs : ℚ))
  else .node '/' (.leaf (.num (c.num.natAbs : ℚ))) (.leaf (.num (c.den : ℚ)))

/-- Print-tree of a signed coefficient: the sign stays inside the
leading numeral, since the tokenizer reads a `-` that follows an
operator (or starts the input) as part of the number. -/
def ratSignedTree (c : ℚ) : PTree :=
  if c.den = 1 then .leaf (.num c)
  else .node '/' (.leaf (.num (c.num : ℚ))) (.leaf (.num (c.den : ℚ)))

/-- Print-tree of the variable part `s^p`; power one omits the
exponent. -/
def sPowTree (p : ℤ) : PTree :=
  if p = 1 then .leaf .symVar
  else .node '^' (.leaf .symVar) (.leaf (.num (p : ℚ)))

/-- Print-tree of one non-leading rendered term body: the coefficient
appears in absolute value (its sign is carried by the joining
operator), `±1` omits the numeral away from power zero. -/
def tailTermTree (c : ℚ) (p : ℤ) : PTree :=
  if p = 0 then ratAbsTree c
  else if c = 1 ∨ c = -1 then sPowTree p
  else .node '*' (ratAbsTree c) (sPowTree p)

/-- Print-tree of the leading rendered term, sign included: `-1`
becomes a unary minus on the variable part, any other negative
coefficient keeps its sign inside the leading numeral. -/
def headTermTree (c : ℚ) (p : ℤ) : PTree :=
  if p = 0 then ratSignedTree c
  else if c = 1 then sPowTree p
  else if c = -1 then .unary '-' (sPowTree p)
  else .node '*' (ratSignedTree c) (sPowTree p)

/-- Left-associated chaining of the remaining rendered terms onto an
accumulated print-tree, joined with `+` or `-` by coefficient sign. -/
def polyTreeGo (acc : PTree) : List Mono → PTree
  | [] => acc
  | (c, p) :: rest =>
      polyTreeGo (.node (if c < 0 then '-' else '+') acc (tailTermTree c p)) rest

/-- Print-tree of a whole rendered polynomial; the empty term list
renders as the literal `0`. -/
def treeOfPoly : List Mono → PTree
  | [] => .leaf (.num 0)
  | (c, p) :: rest => polyTreeGo (headTermTree c p) rest

/-- Symbolic value of one non-leading rendered term body. -/
def termVal (c : ℚ) (p : ℤ) : SOperand :=
  if p = 0 then .sc |c| else .term [(|c|, p)]

/-- Symbolic value of the leading rendered term, sign included. -/
def signedTermVal (c : ℚ) (p : ℤ) : SOperand :=
  if p = 0 then .sc c else .term [(c, p)]


theorem readDigits_length (cs : List Char) : ∀ acc, (readDigits acc cs).2.length ≤ cs.length := by
  induction cs with
  | nil => intro acc; simp [readDigits]
  | cons c cs ih =>
      intro acc
      by_cases h : c.isDigit
      · simpa [readDigits, h] using Nat.le_succ_of_le (ih _)
      · simp [readDigits, h]

theorem readDigits_cons_digit_length {c : Char} (hd : c.isDigit = true) (cs : List Char)
    (acc : ℕ) : (readDigits acc (c :: cs)).2.length ≤ cs.length := by
  rw [readDigits, if_pos hd]
  exact readDigits_length cs _

theorem NextIsNumberUnsigned_length {cs r : List Char} {q : ℚ}
    (h : NextIsNumberUnsigned cs = some (q, r)) : r.length < cs.length := by
  match cs with
  | [] => simp [NextIsNumberUnsigned] at h
  | c :: cs' =>
      rw [NextIsNumberUnsigned] at h
      by_cases hd : c.isDigit
      · rw [if_pos hd] at h
        have hip : (readDigits 0 (c :: cs')).2.length ≤ cs'.length :=
          readDigits_cons_digit_length hd cs' 0
        split at h
        · rename_i n c2 rest2 heq
          rw [heq] at hip
          simp only [List.length_cons] at hip
          split at h
          · rename_i h2
            simp only [Option.some.injEq, Prod.mk.injEq] at h
            obtain ⟨-, rfl⟩ := h
            have h3 : (readDigits 0 (c2 :: rest2)).2.length ≤ rest2.length :=
              readDigits_cons_digit_length h2 rest2 0
            simp only [List.length_cons]
            omega
          · simp only [Option.some.injEq, Prod.mk.injEq] at h
            obtain ⟨-, rfl⟩ := h
            simp only [List.length_cons]
            omega
        · rename_i hno heq
          simp only [Option.some.injEq, Prod.mk.injEq] at h
          obtain ⟨-, rfl⟩ := h
          rw [heq] at hip
          simp only at hip
          simp only [List.length_cons]
          omega
      · rw [if_neg hd] at h
        simp at h

theorem NextIsNumber_length {cs r : List Char} {q : ℚ} {b : Bool}
    (h : NextIsNumber cs b = some (q, r)) : r.length < cs.length := by
  rw [NextIsNumber.eq_def] at h
  split at h
  · split at h
    · split at h
      · rename_i rest _ q' r' heq
        simp only [Option.some.injEq, Prod.mk.injEq] at h
        obtain ⟨-, rfl⟩ := h
        exact Nat.lt_succ_of_lt (NextIsNumberUnsigned_length heq)
      · simp at h
    · simp at h
  · split at h
    · exact Nat.lt_succ_of_lt (NextIsNumberUnsigned_length h)
    · simp at h
  · exact NextIsNumberUnsigned_length h

theorem NextIsDataset_length {cs r : List Char} {i : ℕ}
    (h : NextIsDataset cs = some (i, r)) : r.length < cs.length := by
  rw [NextIsDataset.eq_def] at h
  split at h
  · rename_i c rest
    split at h
    · rename_i hd
      have hip : (readDigits 0 (c :: rest)).2.length ≤ rest.length :=
        readDigits_cons_digit_length hd rest 0
      split at h
      · rename_i n rest3 heq
        simp only [Option.some.injEq, Prod.mk.injEq] at h
        obtain ⟨-, rfl⟩ := h
        rw [heq] at hip
        simp only [List.length_cons] at hip ⊢
        omega
      · simp at h
    · simp at h
  · simp at h

theorem matchesNoCase_length {t cs r : List Char}
    (h : matchesNoCase t cs = some r) : r.length + t.length ≤ cs.length := by
  induction t generalizing cs with
  | nil =>
      rw [matchesNoCase] at h
      simp only [Option.some.injEq] at h
      subst h
      simp
  | cons a t ih =>
      match cs with
      | [] => simp [matchesNoCase] at h
      | c :: cs' =>
          rw [matchesNoCase] at h
          split at h
          · have := ih h
            simp only [List.length_cons]
            omega
          · simp at h

theorem findFn_length {nms : List String} {cs r : List Char} {nm : String}
    (hne : ∀ n ∈ nms, n.toList ≠ []) (h : findFn nms cs = some (nm, r)) :
    r.length < cs.length := by
  induction nms with
  | nil => simp [findFn] at h
  | cons a nms ih =>
      rw [findFn] at h
      split at h
      · rename_i r' heq
        simp only [Option.some.injEq, Prod.mk.injEq] at h
        obtain ⟨h1, rfl⟩ := h
        have hlen := matchesNoCase_length heq
        have hnz : a.toList.length ≠ 0 := by
          intro h0
          exact hne a (List.mem_cons_self a nms) (List.length_eq_zero.mp h0)
        omega
      · exact ih (fun n hn => hne n (List.mem_cons_of_mem _ hn)) h

theorem NextIsFunction_length {cs r : List Char} {nm : String}
    (h : NextIsFunction cs = some (nm, r)) : r.length < cs.length := by
  refine findFn_length ?_ h
  intro n hn
  fin_cases hn <;> simp

theorem Classify_length {cs r : List Char} {t : Token} {b : Bool}
    (h : Classify cs b = some (t, r)) : r.length < cs.length := by
  rw [Classify.eq_def] at h
  split at h
  · rename_i q r' heq
    simp only [Option.some.injEq, Prod.mk.injEq] at h
    obtain ⟨-, rfl⟩ := h
    exact NextIsNumber_length heq
  · split at h
    · rename_i i r' heq
      simp only [Option.some.injEq, Prod.mk.injEq] at h
      obtain ⟨-, rfl⟩ := h
      exact NextIsDataset_length heq
    · split at h
      · rename_i nm r' heq
        simp only [Option.some.injEq, Prod.mk.injEq] at h
        obtain ⟨-, rfl⟩ := h
        exact NextIsFunction_length heq
      · split at h
        · rename_i c r'
          split_ifs at h <;>
            first
            | (simp only [Option.some.injEq, Prod.mk.injEq] at h
               obtain ⟨-, rfl⟩ := h
               simp)
            | simp at h
        · simp at h

theorem TokenizeF_congr : ∀ (f1 : ℕ), ∀ (f2 : ℕ) (cs : List Char) (b : Bool),
    cs.length ≤ f1 → cs.length ≤ f2 → TokenizeF f1 cs b = TokenizeF f2 cs b := by
  intro f1
  induction f1 using Nat.strong_induction_on with
  | _ f1 ih =>
      intro f2 cs b h1 h2
      match cs with
      | [] =>
          cases f1 <;> cases f2 <;> rfl
      | c :: cs' =>
          match f1, f2 with
          | 0, _ => simp at h1
          | _, 0 => simp at h2
          | fa + 1, fb + 1 =>
              simp only [TokenizeF]
              cases hcl : Classify (c :: cs') b with
              | none => rfl
              | some tr =>
                  obtain ⟨t, rest⟩ := tr
                  have hlt := Classify_length hcl
                  simp only [List.length_cons] at h1 h2 hlt
                  dsimp only
                  rw [ih fa (by omega) fb rest (setsLastWasOperator t) (by omega) (by omega)]

/-- Step equation for `Tokenize` on a nonempty input. -/
theorem Tokenize_cons (c : Char) (cs' : List Char) (b : Bool) :
    Tokenize (c :: cs') b =
      match Classify (c :: cs') b with
      | none => .error (.unrecognizedLexeme c)
      | some (t, rest) =>
          match Tokenize rest (setsLastWasOperator t) with
          | .error e => .error e
          | .ok ts => .ok (t :: ts) := by
  show TokenizeF (cs'.length + 1) (c :: cs') b = _
  simp only [TokenizeF]
  cases hcl : Classify (c :: cs') b with
  | none => rfl
  | some tr =>
      obtain ⟨t, rest⟩ := tr
      have hlt := Classify_length hcl
      simp only [List.length_cons] at hlt
      dsimp only
      rw [show TokenizeF cs'.length rest (setsLastWasOperator t) =
        Tokenize rest (setsLastWasOperator t) from
        TokenizeF_congr cs'.length rest.length rest (setsLastWasOperator t) (by omega) le_rfl]


end ExpressionTree

end LibPlot2D

namespace LibPlot2D

theorem qadd_eq (a b : ℚ) : qadd a b = a + b := (Rat.add_def' a b).symm

theorem qsub_eq (a b : ℚ) : qsub a b = a - b := (Rat.sub_def' a b).symm

theorem qmul_eq (a b : ℚ) : qmul a b = a * b := by
  rw [qmul, Rat.mul_def, Rat.normalize_eq_mkRat]

theorem qinv_eq (a : ℚ) : qinv a = a⁻¹ := by
  rw [Rat.inv_def', qinv]
  split
  · rename_i h
    rw [Rat.mkRat_eq_divInt]
    have h2 : ((a.num.toNat : ℤ)) = a.num := by omega
    rw [h2]
  · rename_i h
    rw [Rat.mkRat_eq_divInt]
    have h2 : (((-a.num).toNat : ℤ)) = -a.num := by omega
    rw [h2, ← Rat.neg_divInt_neg a.den a.num]

theorem qdiv_eq (a b : ℚ) : qdiv a b = a / b := by
  rw [qdiv, qmul_eq, qinv_eq, div_eq_mul_inv]

theorem qabs_eq (a : ℚ) : qabs a = |a| := by
  rcases le_or_lt 0 a with h | h
  · rw [abs_of_nonneg h, qabs]
    have hn : (a.num.natAbs : ℤ) = a.num := by
      have := Rat.num_nonneg.mpr h
      omega
    rw [hn, Rat.mkRat_self]
  · rw [abs_of_neg h, qabs]
    have hn : (a.num.natAbs : ℤ) = -a.num := by
      have : a.num < 0 := Rat.num_neg.mpr h
      omega
    rw [hn, ← Rat.neg_mkRat, Rat.mkRat_self]

theorem qpowNat_eq (a : ℚ) (n : ℕ) : qpowNat a n = a ^ n := by
  rw [qpowNat, Rat.mkRat_eq_divInt, Rat.divInt_eq_div]
  push_cast
  rw [← div_pow, Rat.num_div_den]

theorem qzpow_eq (a : ℚ) (k : ℤ) : qzpow a k = a ^ k := by
  rw [qzpow]
  split
  · rename_i h
    rw [qpowNat_eq, ← zpow_natCast]
    congr 1
    omega
  · rename_i h
    rw [qinv_eq, qpowNat_eq, ← zpow_natCast, ← zpow_neg]
    congr 1
    omega

end LibPlot2D

namespace LibPlot2D

theorem integGo_length (xs : List FVal) : ∀ (ys : List FVal) (px py acc : FVal),
    (DiscreteIntegral.integGo px py acc xs ys).length = min xs.length ys.length := by
  induction xs with
  | nil => intro ys px py acc; cases ys <;> simp [DiscreteIntegral.integGo]
  | cons x xs ih =>
      intro ys px py acc
      cases ys with
      | nil => simp [DiscreteIntegral.integGo]
      | cons y ys =>
          simp only [DiscreteIntegral.integGo, List.length_cons, ih]
          omega

theorem integGo_spec (xs : List FVal) : ∀ (ys : List FVal) (px py acc : FVal) (i : ℕ),
    i < xs.length → i < ys.length →
    (DiscreteIntegral.integGo px py acc xs ys).getD i .nan =
      fadd ((acc :: DiscreteIntegral.integGo px py acc xs ys).getD i .nan)
        (fmul (fmul (fsub (xs.getD i .nan) ((px :: xs).getD i .nan)) (.fin (mkRat 1 2)))
          (fadd (ys.getD i .nan) ((py :: ys).getD i .nan))) := by
  induction xs with
  | nil => intro ys px py acc i h1 h2; simp at h1
  | cons x xs ih =>
      intro ys px py acc i h1 h2
      cases ys with
      | nil => simp at h2
      | cons y ys =>
          cases i with
          | zero => simp [DiscreteIntegral.integGo]
          | succ j =>
              simp only [List.length_cons, Nat.succ_lt_succ_iff] at h1 h2
              simp only [DiscreteIntegral.integGo, List.getD_cons_succ]
              exact ih ys x y _ j h1 h2

/-- C10: `DiscreteIntegral::ComputeTimeHistory` implements the
trapezoidal rule: with at least two points the output keeps the x data
and the point count, starts at `y[0] = 0` and accumulates
`y[i] = y[i-1] + (x[i] - x[i-1]) * 0.5 * (yIn[i] + yIn[i-1])`; with
fewer than two points the input is returned as an exact copy (in
particular `y[0]` is not zeroed). -/
theorem ComputeTimeHistory_trapezoid (data : Dataset2D)
    (hlen : data.yData.length = data.xData.length) :
    (2 ≤ data.numPoints →
      (DiscreteIntegral.ComputeTimeHistory data).xData = data.xData ∧
      (DiscreteIntegral.ComputeTimeHistory data).yData.length = data.yData.length ∧
      (DiscreteIntegral.ComputeTimeHistory data).yData.getD 0 .nan = .fin 0 ∧
      (∀ i, 1 ≤ i → i < data.numPoints →
        (DiscreteIntegral.ComputeTimeHistory data).yData.getD i .nan =
          fadd ((DiscreteIntegral.ComputeTimeHistory data).yData.getD (i - 1) .nan)
            (fmul (fmul (fsub (data.xData.getD i .nan) (data.xData.getD (i - 1) .nan))
                (.fin (mkRat 1 2)))
              (fadd (data.yData.getD i .nan) (data.yData.getD (i - 1) .nan))))) ∧
    (data.numPoints < 2 → DiscreteIntegral.ComputeTimeHistory data = data) := by
  constructor
  · intro h2
    have hnotlt : ¬ data.numPoints < 2 := by omega
    obtain ⟨x0, xs, hxd⟩ : ∃ a l, data.xData = a :: l := by
      cases hc : data.xData with
      | nil => rw [Dataset2D.numPoints, hc] at h2; simp at h2
      | cons a l => exact ⟨a, l, rfl⟩
    obtain ⟨y0, ys, hyd⟩ : ∃ a l, data.yData = a :: l := by
      cases hc : data.yData with
      | nil => rw [hc, hxd] at hlen; simp at hlen
      | cons a l => exact ⟨a, l, rfl⟩
    have hlen' := hlen
    rw [hyd, hxd] at hlen'
    simp only [List.length_cons] at hlen'
    have hout : DiscreteIntegral.ComputeTimeHistory data =
        { data with yData := .fin 0 :: DiscreteIntegral.integGo x0 y0 (.fin 0) xs ys } := by
      rw [DiscreteIntegral.ComputeTimeHistory.eq_def, if_neg hnotlt, hxd, hyd]
    rw [hout]
    refine ⟨rfl, ?_, rfl, ?_⟩
    · show (FVal.fin 0 :: DiscreteIntegral.integGo x0 y0 (.fin 0) xs ys).length =
        data.yData.length
      rw [hyd]
      simp only [List.length_cons, integGo_length]
      omega
    · intro i h1 hi
      rw [Dataset2D.numPoints, hxd] at hi
      simp only [List.length_cons] at hi
      obtain ⟨j, rfl⟩ : ∃ j, i = j + 1 := ⟨i - 1, by omega⟩
      have hjx : j < xs.length := by omega
      have hjy : j < ys.length := by omega
      show (FVal.fin 0 :: DiscreteIntegral.integGo x0 y0 (.fin 0) xs ys).getD (j + 1) .nan = _
      simp only [hxd, hyd, Nat.add_sub_cancel, List.getD_cons_succ]
      exact integGo_spec xs ys x0 y0 (.fin 0) j hjx hjy
  · intro hlt
    rw [DiscreteIntegral.ComputeTimeHistory.eq_def, if_pos hlt]

theorem ComputeTimeHistory_trapezoid_witness :
    (Dataset2D.yData ⟨[.fin 0, .fin 1, .fin 2], [.fin 1, .fin 2, .fin 3]⟩).length =
      (Dataset2D.xData ⟨[.fin 0, .fin 1, .fin 2], [.fin 1, .fin 2, .fin 3]⟩).length ∧
    ((2 ≤ Dataset2D.numPoints ⟨[.fin 0, .fin 1, .fin 2], [.fin 1, .fin 2, .fin 3]⟩ →
      (DiscreteIntegral.ComputeTimeHistory
          ⟨[.fin 0, .fin 1, .fin 2], [.fin 1, .fin 2, .fin 3]⟩).xData =
        (Dataset2D.xData ⟨[.fin 0, .fin 1, .fin 2], [.fin 1, .fin 2, .fin 3]⟩) ∧
      (DiscreteIntegral.ComputeTimeHistory
          ⟨[.fin 0, .fin 1, .fin 2], [.fin 1, .fin 2, .fin 3]⟩).yData.length =
        (Dataset2D.yData ⟨[.fin 0, .fin 1, .fin 2], [.fin 1, .fin 2, .fin 3]⟩).length ∧
      (DiscreteIntegral.ComputeTimeHistory
          ⟨[.fin 0, .fin 1, .fin 2], [.fin 1, .fin 2, .fin 3]⟩).yData.getD 0 .nan = .fin 0 ∧
      (∀ i, 1 ≤ i → i < Dataset2D.numPoints ⟨[.fin 0, .fin 1, .fin 2], [.fin 1, .fin 2, .fin 3]⟩ →
        (DiscreteIntegral.ComputeTimeHistory
            ⟨[.fin 0, .fin 1, .fin 2], [.fin 1, .fin 2, .fin 3]⟩).yData.getD i .nan =
          fadd ((DiscreteIntegral.ComputeTimeHistory
              ⟨[.fin 0, .fin 1, .fin 2], [.fin 1, .fin 2, .fin 3]⟩).yData.getD (i - 1) .nan)
            (fmul (fmul (fsub
                ((Dataset2D.xData ⟨[.fin 0, .fin 1, .fin 2], [.fin 1, .fin 2, .fin 3]⟩).getD i .nan)
                ((Dataset2D.xData
                  ⟨[.fin 0, .fin 1, .fin 2], [.fin 1, .fin 2, .fin 3]⟩).getD (i - 1) .nan))
                (.fin (mkRat 1 2)))
              (fadd
                ((Dataset2D.yData ⟨[.fin 0, .fin 1, .fin 2], [.fin 1, .fin 2, .fin 3]⟩).getD i .nan)
                ((Dataset2D.yData
                  ⟨[.fin 0, .fin 1, .fin 2], [.fin 1, .fin 2, .fin 3]⟩).getD (i - 1) .nan))))) ∧
    (Dataset2D.numPoints ⟨[.fin 0, .fin 1, .fin 2], [.fin 1, .fin 2, .fin 3]⟩ < 2 →
      DiscreteIntegral.ComputeTimeHistory ⟨[.fin 0, .fin 1, .fin 2], [.fin 1, .fin 2, .fin 3]⟩ =
        ⟨[.fin 0, .fin 1, .fin 2], [.fin 1, .fin 2, .fin 3]⟩)) :=
  ⟨rfl, ComputeTimeHistory_trapezoid ⟨[.fin 0, .fin 1, .fin 2], [.fin 1, .fin 2, .fin 3]⟩ rfl⟩

end LibPlot2D

namespace LibPlot2D

theorem fmul_one_right (v : FVal) : fmul v (.fin 1) = v := by
  cases v with
  | nan => rfl
  | pinf => rfl
  | ninf => rfl
  | fin a =>
      show FVal.fin (qmul a 1) = FVal.fin a
      rw [qmul_eq, mul_one]

namespace ExpressionTree

/-- C4: a binary operator on two signal operands with differing point
counts fails with the signal-length-mismatch error and produces no
result — never resampling or truncating; with equal counts it succeeds,
keeping the first signal's x data and point count and combining y data
index-for-index. -/
theorem applyOperation_signal_length (c : Char) (d1 d2 : Dataset2D) :
    (d1.numPoints ≠ d2.numPoints →
      ApplyOperationN c (.set d1) (.set d2) = .error .signalLengthMismatch ∧
      ∀ (st : List NOperand) (regs : List Dataset2D) (xf : ℚ),
        EvaluateNextN regs xf (.op c) (.set d2 :: .set d1 :: st) =
          .error .signalLengthMismatch) ∧
    (d1.numPoints = d2.numPoints →
      ApplyOperationN c (.set d1) (.set d2) =
        .ok (.set { xData := d1.xData,
                    yData := List.zipWith (ApplyOperationScalar c) d1.yData d2.yData })) := by
  constructor
  · intro h
    have happ : ApplyOperationN c (.set d1) (.set d2) = .error .signalLengthMismatch := by
      rw [ApplyOperationN, ApplyOperationSetSet, if_neg h]
    refine ⟨happ, ?_⟩
    intro st regs xf
    rw [EvaluateNextN, happ]
  · intro h
    rw [ApplyOperationN, ApplyOperationSetSet, if_pos h]

/-- Witness for C4 at one-point versus two-point signals. -/
theorem applyOperation_signal_length_witness :
    (Dataset2D.numPoints ⟨[.fin 0], [.fin 1]⟩ ≠
        Dataset2D.numPoints ⟨[.fin 0, .fin 1], [.fin 1, .fin 2]⟩) ∧
    ApplyOperationN '+' (.set ⟨[.fin 0], [.fin 1]⟩)
        (.set ⟨[.fin 0, .fin 1], [.fin 1, .fin 2]⟩) = .error .signalLengthMismatch :=
  ⟨by decide,
   ((applyOperation_signal_length '+' ⟨[.fin 0], [.fin 1]⟩
      ⟨[.fin 0, .fin 1], [.fin 1, .fin 2]⟩).1 (by decide)).1⟩

/-- C5: a dataset reference with index at or beyond the registry size
fails with the invalid-dataset-index error — shown end-to-end for
`"[5]"` against a two-entry registry — while an in-range index resolves
to the x-scaled clone of the registered signal.  The registry is a
read-only input of the model, so the failed call cannot change it. -/
theorem datasetReference_bounds (regs : List Dataset2D) (xf : ℚ) (i : ℕ) :
    (regs.length ≤ i → ∀ st, EvaluateNextN regs xf (.dref i) st =
        .error (.invalidDatasetIndex i)) ∧
    (∀ h : i < regs.length, ∀ st, EvaluateNextN regs xf (.dref i) st =
        .ok (.set (GetSetFromList regs xf ⟨i, h⟩) :: st)) ∧
    Solve "[5]" [⟨[.fin 0], [.fin 1]⟩, ⟨[.fin 0], [.fin 2]⟩] 1 =
      .error (.invalidDatasetIndex 5) ∧
    Solve "[0]" [⟨[.fin 0], [.fin 1]⟩, ⟨[.fin 0], [.fin 2]⟩] 1 =
      .ok (.set ⟨[.fin 0], [.fin 1]⟩) := by
  refine ⟨?_, ?_, by rfl, by rfl⟩
  · intro h st
    rw [EvaluateNextN, dif_neg (by omega)]
  · intro h st
    rw [EvaluateNextN, dif_pos h]

/-- Witness for C5 at index 5 against a two-entry registry. -/
theorem datasetReference_bounds_witness :
    ([(⟨[.fin 0], [.fin 1]⟩ : Dataset2D), ⟨[.fin 0], [.fin 2]⟩].length ≤ 5) ∧
    EvaluateNextN [⟨[.fin 0], [.fin 1]⟩, ⟨[.fin 0], [.fin 2]⟩] 1 (.dref 5) [] =
      .error (.invalidDatasetIndex 5) :=
  ⟨by decide,
   (datasetReference_bounds [⟨[.fin 0], [.fin 1]⟩, ⟨[.fin 0], [.fin 2]⟩] 1 5).1 (by decide) []⟩

/-- C8: failing the depth-counter parenthesis balance pre-pass makes
both Solve modes return the unbalanced-parentheses error no matter what
else the string contains — before any tokenization — and in particular
`"(1+2"` fails this way and never produces a result. -/
theorem unbalancedParentheses_prepass (e : String) (regs : List Dataset2D) (xf : ℚ) :
    (ParenthesesBalanced (e.toList.filter (fun c => c ≠ ' ')) = false →
      Solve e regs xf = .error .unbalancedParentheses ∧
      SolveSymbolic e = .error .unbalancedParentheses) ∧
    Solve "(1+2" regs xf = .error .unbalancedParentheses ∧
    SolveSymbolic "(1+2" = .error .unbalancedParentheses ∧
    Solve "(?" regs xf = .error .unbalancedParentheses := by
  have hgen : ∀ (t : String),
      ParenthesesBalanced (t.toList.filter (fun c => c ≠ ' ')) = false →
      Solve t regs xf = .error .unbalancedParentheses ∧
      SolveSymbolic t = .error .unbalancedParentheses := by
    intro t h
    constructor
    · rw [Solve, ParseExpression, if_neg (by rw [h]; exact Bool.false_ne_true)]
    · rw [SolveSymbolic, ParseExpression, if_neg (by rw [h]; exact Bool.false_ne_true)]
  exact ⟨hgen e, (hgen "(1+2" rfl).1, (hgen "(1+2" rfl).2, (hgen "(?" rfl).1⟩

/-- Witness for C8 at the concrete unbalanced input `"(1+2"`. -/
theorem unbalancedParentheses_prepass_witness :
    (ParenthesesBalanced ("(1+2".toList.filter (fun c => c ≠ ' ')) = false) ∧
    Solve "(1+2" [] 1 = .error .unbalancedParentheses ∧
    SolveSymbolic "(1+2" = .error .unbalancedParentheses :=
  ⟨rfl, (unbalancedParentheses_prepass "(1+2" [] 1).1 rfl⟩

/-- C6: in symbolic mode, division by a symbolic denominator is an
unsupported-symbolic-operation error, as is `^` with a symbolic or
non-integer exponent; division of a term by a scalar divides the
coefficients and `^` by a scalar integer exponent multiplies the
variable's exponent by it, and these are the only succeeding forms. -/
theorem symbolic_division_power_support (a b : ℚ) (t t1 t2 : List Mono) :
    (ApplyOperationS '/' (.sc a) (.term t) = .error .unsupportedSymbolicOperation) ∧
    (ApplyOperationS '/' (.term t1) (.term t2) = .error .unsupportedSymbolicOperation) ∧
    (ApplyOperationS '^' (.sc a) (.term t) = .error .unsupportedSymbolicOperation) ∧
    (ApplyOperationS '^' (.term t1) (.term t2) = .error .unsupportedSymbolicOperation) ∧
    (b.den ≠ 1 → ApplyOperationS '^' (.term t) (.sc b) =
      .error .unsupportedSymbolicOperation) ∧
    (ApplyOperationS '/' (.term t) (.sc b) = .ok (.term (StringDivideTS t b))) ∧
    (b.den = 1 → ApplyOperationS '^' (.term t) (.sc b) =
      .ok (.term (StringPowerTS t b.num))) ∧
    SolveSymbolic "2/s" = .error .unsupportedSymbolicOperation ∧
    SolveSymbolic "s^s" = .error .unsupportedSymbolicOperation ∧
    SolveSymbolic "s^0.5" = .error .unsupportedSymbolicOperation ∧
    SolveSymbolic "2^s" = .error .unsupportedSymbolicOperation ∧
    SolveSymbolic "s/2" = .ok "1/2*s" ∧
    SolveSymbolic "s^2" = .ok "s^2" := by
  refine ⟨rfl, rfl, rfl, rfl, ?_, rfl, ?_, rfl, rfl, rfl, rfl, rfl, rfl⟩
  · intro h
    rw [ApplyOperationS, if_neg h]
  · intro h
    rw [ApplyOperationS, if_pos h]

/-- Witness for C6 at exponents one half and two. -/
theorem symbolic_division_power_support_witness :
    ((mkRat 1 2).den ≠ 1 ∧
      ApplyOperationS '^' (.term [(1, 1)]) (.sc (mkRat 1 2)) =
        .error .unsupportedSymbolicOperation) ∧
    ((2 : ℚ).den = 1 ∧
      ApplyOperationS '^' (.term [(1, 1)]) (.sc 2) =
        .ok (.term (StringPowerTS [(1, 1)] (2 : ℚ).num))) :=
  ⟨⟨by decide, (symbolic_division_power_support 0 (mkRat 1 2) [(1, 1)] [] []).2.2.2.2.1
      (by decide)⟩,
   ⟨by decide, (symbolic_division_power_support 0 2 [(1, 1)] [] []).2.2.2.2.2.2.1
      (by decide)⟩⟩

/-- C7: numeric-domain conditions are never errors: scalar operator
and scalar function application are total, and division by zero,
sqrt/log of a negative argument and NaN propagation all leave Solve in
the success case with the IEEE-754 special value as the result. -/
theorem numeric_domain_not_errors :
    (∀ (c : Char) (a b : FVal) (st : List NOperand) (regs : List Dataset2D) (xf : ℚ),
      EvaluateNextN regs xf (.op c) (.scalar b :: .scalar a :: st) =
        .ok (.scalar (ApplyOperationScalar c a b) :: st)) ∧
    (∀ (v : FVal) (st : List NOperand) (regs : List Dataset2D) (xf : ℚ),
      EvaluateNextN regs xf (.fn "sqrt") (.scalar v :: st) =
        .ok (.scalar (fsqrt v) :: st)) ∧
    (∀ (v : FVal) (st : List NOperand) (regs : List Dataset2D) (xf : ℚ),
      EvaluateNextN regs xf (.fn "log") (.scalar v :: st) =
        .ok (.scalar (flog v) :: st)) ∧
    Solve "1/0" [] 1 = .ok (.scalar .pinf) ∧
    Solve "-1/0" [] 1 = .ok (.scalar .ninf) ∧
    Solve "0/0" [] 1 = .ok (.scalar .nan) ∧
    Solve "sqrt(0-4)" [] 1 = .ok (.scalar .nan) ∧
    Solve "log(0-1)" [] 1 = .ok (.scalar .nan) ∧
    Solve "0/0+5" [] 1 = .ok (.scalar .nan) :=
  ⟨fun _ _ _ _ _ _ => rfl, fun _ _ _ _ => rfl, fun _ _ _ _ => rfl,
   rfl, rfl, rfl, rfl, rfl, rfl⟩

end ExpressionTree

end LibPlot2D

namespace LibPlot2D

namespace ExpressionTree

theorem EvaluateQueueN_cons_ok {regs : List Dataset2D} {xf : ℚ} {t : Token}
    {ts : List Token} {st st' : List NOperand}
    (h : EvaluateNextN regs xf t st = .ok st') :
    EvaluateQueueN regs xf (t :: ts) st = EvaluateQueueN regs xf ts st' := by
  rw [EvaluateQueueN, h]

/-- C9: adding a registry entry to itself doubles the y data pointwise
and keeps the x data unchanged (with x-axis factor 1), for every
registered signal; each reference operates on a clone and the registry
is a read-only input of the pure model, so the caller's signal is never
mutated. -/
theorem double_reference_doubles (d : Dataset2D) :
    Solve "[0]+[0]" [d] 1 =
      .ok (.set { xData := d.xData, yData := List.zipWith fadd d.yData d.yData }) ∧
    Solve "[0]+[0]" [⟨[.fin 0, .fin 1, .fin 2], [.fin 1, .fin 2, .fin 3]⟩] 1 =
      .ok (.set ⟨[.fin 0, .fin 1, .fin 2], [.fin 2, .fin 4, .fin 6]⟩) := by
  constructor
  · have hstart : Solve "[0]+[0]" [d] 1 =
        EvaluateExpressionN [d] 1 [.dref 0, .dref 0, .op '+'] := rfl
    rw [hstart]
    have hset : GetSetFromList [d] 1 ⟨0, by simp⟩ = d := by
      rw [GetSetFromList]
      show ({ xData := d.xData.map (fun x => fmul x (.fin 1)), yData := d.yData } :
          Dataset2D) = d
      have hx : d.xData.map (fun x => fmul x (.fin 1)) = d.xData := by
        rw [show (fun x => fmul x (FVal.fin 1)) = fun x => x from funext fmul_one_right]
        exact d.xData.map_id'
      rw [hx]
    have step1 : EvaluateNextN [d] 1 (.dref 0) [] = .ok [.set d] := by
      rw [EvaluateNextN, dif_pos (by simp), hset]
    have step2 : EvaluateNextN [d] 1 (.dref 0) [.set d] = .ok [.set d, .set d] := by
      rw [EvaluateNextN, dif_pos (by simp), hset]
    have step3 : EvaluateNextN [d] 1 (.op '+') [.set d, .set d] =
        .ok [.set { xData := d.xData, yData := List.zipWith fadd d.yData d.yData }] := by
      rw [EvaluateNextN]
      rw [show ApplyOperationN '+' (.set d) (.set d) =
          .ok (.set { xData := d.xData, yData := List.zipWith fadd d.yData d.yData }) from by
        rw [ApplyOperationN, ApplyOperationSetSet, if_pos rfl]
        rfl]
    rw [EvaluateExpressionN, EvaluateQueueN_cons_ok step1, EvaluateQueueN_cons_ok step2,
      EvaluateQueueN_cons_ok step3, EvaluateQueueN]
  · rfl

end ExpressionTree

end LibPlot2D

namespace LibPlot2D

namespace ExpressionTree

theorem natCharsF_eq (f n : ℕ) (acc : List Char) : natCharsF f n acc =
    if n < 10 then digitChar n :: acc
    else match f with
      | 0 => acc
      | fu + 1 => natCharsF fu (n / 10) (digitChar (n % 10) :: acc) :=
  natCharsF.eq_def f n acc

theorem natCharsF_acc (f : ℕ) : ∀ (n : ℕ) (acc : List Char),
    natCharsF f n acc = natCharsF f n [] ++ acc := by
  induction f with
  | zero =>
      intro n acc
      rw [natCharsF_eq, natCharsF_eq]
      by_cases h : n < 10
      · simp [h]
      · simp [h]
  | succ f ih =>
      intro n acc
      rw [natCharsF_eq, natCharsF_eq]
      by_cases h : n < 10
      · simp [h]
      · simp only [h, if_false]
        rw [ih (n / 10) (digitChar (n % 10) :: acc), ih (n / 10) [digitChar (n % 10)]]
        simp

theorem natCharsF_congr : ∀ (f1 : ℕ), ∀ (f2 n : ℕ), n ≤ f1 → n ≤ f2 →
    natCharsF f1 n [] = natCharsF f2 n [] := by
  intro f1
  induction f1 using Nat.strong_induction_on with
  | _ f1 ih =>
      intro f2 n h1 h2
      by_cases h : n < 10
      · rw [natCharsF_eq, natCharsF_eq, if_pos h, if_pos h]
      · match f1, f2 with
        | 0, _ => omega
        | _, 0 => omega
        | fa + 1, fb + 1 =>
            rw [natCharsF_eq, natCharsF_eq, if_neg h, if_neg h]
            dsimp only
            rw [natCharsF_acc fa, natCharsF_acc fb]
            rw [ih fa (by omega) fb (n / 10) (by omega) (by omega)]

theorem natChars_lt {n : ℕ} (h : n < 10) : natChars n = [digitChar n] := by
  rw [natChars, natCharsF_eq, if_pos h]

theorem natChars_ge {n : ℕ} (h : 10 ≤ n) :
    natChars n = natChars (n / 10) ++ [digitChar (n % 10)] := by
  match n, h with
  | f + 1, _ =>
      rw [natChars, natCharsF_eq, if_neg (by omega)]
      dsimp only
      rw [natCharsF_acc f, natChars]
      rw [natCharsF_congr f ((f + 1) / 10) ((f + 1) / 10) (by omega) (by omega)]

theorem digitChar_isDigit {d : ℕ} (h : d < 10) : (digitChar d).isDigit = true := by
  interval_cases d <;> decide

theorem digitVal_digitChar {d : ℕ} (h : d < 10) : digitVal (digitChar d) = d := by
  interval_cases d <;> decide

theorem natChars_ne_nil (n : ℕ) : natChars n ≠ [] := by
  by_cases h : n < 10
  · rw [natChars_lt h]; simp
  · rw [natChars_ge (by omega)]; simp

theorem natChars_all_digits (n : ℕ) : ∀ c ∈ natChars n, c.isDigit = true := by
  induction n using Nat.strong_induction_on with
  | _ n ih =>
      by_cases h : n < 10
      · rw [natChars_lt h]
        intro c hc
        simp only [List.mem_singleton] at hc
        exact hc ▸ digitChar_isDigit h
      · rw [natChars_ge (by omega)]
        intro c hc
        rcases List.mem_append.mp hc with hc' | hc'
        · exact ih (n / 10) (by omega) c hc'
        · simp only [List.mem_singleton] at hc'
          exact hc' ▸ digitChar_isDigit (by omega)

theorem readDigits_natChars (n : ℕ) : ∀ (acc : ℕ) (rest : List Char),
    readDigits acc (natChars n ++ rest) =
      readDigits (acc * 10 ^ (natChars n).length + n) rest := by
  induction n using Nat.strong_induction_on with
  | _ n ih =>
      intro acc rest
      by_cases h : n < 10
      · rw [natChars_lt h]
        simp only [List.singleton_append, List.length_singleton]
        rw [readDigits, if_pos (digitChar_isDigit h), digitVal_digitChar h]
        norm_num
      · rw [natChars_ge (by omega)]
        simp only [List.append_assoc, List.singleton_append, List.length_append,
          List.length_singleton]
        rw [ih (n / 10) (by omega) acc (digitChar (n % 10) :: rest)]
        rw [readDigits, if_pos (digitChar_isDigit (by omega)), digitVal_digitChar (by omega)]
        congr 1
        have h10 : 10 ^ ((natChars (n / 10)).length + 1) =
            10 ^ (natChars (n / 10)).length * 10 := by
          rw [pow_succ]
        rw [h10]
        have := Nat.div_add_mod n 10
        set A := 10 ^ (natChars (n / 10)).length
        ring_nf
        omega

theorem readDigits_stop {rest : List Char} (acc : ℕ)
    (h : ∀ c, rest.head? = some c → c.isDigit = false) :
    readDigits acc rest = (acc, rest) := by
  cases rest with
  | nil => rfl
  | cons c cs =>
      rw [readDigits, if_neg (by rw [h c rfl]; exact Bool.false_ne_true)]

theorem restOK_head_not_digit {rest : List Char} (h : restOK rest = true) :
    ∀ c, rest.head? = some c → c.isDigit = false := by
  cases rest with
  | nil => intro c hc; simp at hc
  | cons c' cs =>
      intro c hc
      have hcc : c = c' := by simpa using hc.symm
      subst hcc
      simp only [restOK, Bool.or_eq_true, decide_eq_true_eq, beq_iff_eq] at h
      rcases h with h' | h'
      · fin_cases h' <;> decide
      · subst h'
        decide

theorem restOK_head_not_dot {rest : List Char} (h : restOK rest = true) :
    ∀ c, rest.head? = some c → c ≠ '.' := by
  cases rest with
  | nil => intro c hc; simp at hc
  | cons c' cs =>
      intro c hc
      have hcc : c = c' := by simpa using hc.symm
      subst hcc
      simp only [restOK, Bool.or_eq_true, decide_eq_true_eq, beq_iff_eq] at h
      rcases h with h' | h'
      · fin_cases h' <;> decide
      · subst h'
        decide

theorem readDigits_natChars_restOK (n : ℕ) {rest : List Char} (h : restOK rest = true) :
    readDigits 0 (natChars n ++ rest) = (n, rest) := by
  rw [readDigits_natChars, readDigits_stop _ (restOK_head_not_digit h)]
  simp

theorem NextIsNumberUnsigned_natChars (n : ℕ) {rest : List Char} (h : restOK rest = true) :
    NextIsNumberUnsigned (natChars n ++ rest) = some ((n : ℚ), rest) := by
  obtain ⟨c, ds, hcd⟩ : ∃ c ds, natChars n = c :: ds := by
    cases hne : natChars n with
    | nil => exact absurd hne (natChars_ne_nil n)
    | cons c ds => exact ⟨c, ds, rfl⟩
  have hdig : c.isDigit = true := natChars_all_digits n c (by rw [hcd]; simp)
  rw [hcd, List.cons_append, NextIsNumberUnsigned, if_pos hdig, ← List.cons_append, ← hcd,
    readDigits_natChars_restOK n h]
  split
  · rename_i m c2 rest2 heq
    exfalso
    have hr : rest = '.' :: c2 :: rest2 := (Prod.mk.injEq .. ▸ heq).2
    exact restOK_head_not_dot h '.' (by rw [hr]; rfl) rfl
  · rename_i m rest' hno heq
    have h1 : n = m := (Prod.mk.injEq .. ▸ heq).1
    have h2 : rest = rest' := (Prod.mk.injEq .. ▸ heq).2
    rw [← h1, ← h2]

theorem intOfNat_cast_eq {q : ℚ} (hden : q.den = 1) (hpos : 0 ≤ q.num) :
    ((q.num.natAbs : ℕ) : ℚ) = q := by
  refine Rat.ext ?_ ?_
  · simp only [Rat.num_natCast]
    omega
  · simp only [Rat.den_natCast, hden]

theorem Classify_natChars {q : ℚ} (hden : q.den = 1) (hpos : 0 ≤ q.num)
    {rest : List Char} (h : restOK rest = true) (b : Bool) :
    Classify (natChars q.num.natAbs ++ rest) b = some (.num q, rest) := by
  obtain ⟨c, ds, hcd⟩ : ∃ c ds, natChars q.num.natAbs = c :: ds := by
    cases hne : natChars q.num.natAbs with
    | nil => exact absurd hne (natChars_ne_nil _)
    | cons c ds => exact ⟨c, ds, rfl⟩
  have hdig : c.isDigit = true := natChars_all_digits _ c (by rw [hcd]; simp)
  have hnum : NextIsNumber (natChars q.num.natAbs ++ rest) b = some (q, rest) := by
    rw [hcd, List.cons_append, NextIsNumber.eq_def]
    have hc1 : c ≠ '-' := by intro hc; rw [hc] at hdig; exact absurd hdig (by decide)
    have hc2 : c ≠ '+' := by intro hc; rw [hc] at hdig; exact absurd hdig (by decide)
    split
    · rename_i rest' heq
      exact absurd (List.cons.injEq .. ▸ heq).1 hc1
    · rename_i rest' heq
      exact absurd (List.cons.injEq .. ▸ heq).1 hc2
    · rw [← List.cons_append, ← hcd, NextIsNumberUnsigned_natChars _ h,
        intOfNat_cast_eq hden hpos]
  rw [Classify.eq_def, hnum]

theorem Classify_neg_natChars {q : ℚ} (hden : q.den = 1) (hneg : q.num < 0)
    {rest : List Char} (h : restOK rest = true) :
    Classify ('-' :: (natChars q.num.natAbs ++ rest)) true = some (.num q, rest) := by
  have habs : ((q.num.natAbs : ℕ) : ℚ) = -q := by
    have h1 : (-q).den = 1 := by rw [Rat.neg_den, hden]
    have h2 : 0 ≤ (-q).num := by rw [Rat.neg_num]; omega
    have h3 : (-q).num.natAbs = q.num.natAbs := by rw [Rat.neg_num]; omega
    rw [← h3]
    exact intOfNat_cast_eq h1 h2
  have hnum : NextIsNumber ('-' :: (natChars q.num.natAbs ++ rest)) true = some (q, rest) := by
    show (match NextIsNumberUnsigned (natChars q.num.natAbs ++ rest) with
      | some (q', r) => some (-q', r)
      | none => none) = some (q, rest)
    rw [NextIsNumberUnsigned_natChars _ h]
    dsimp only
    rw [habs, neg_neg]
  rw [Classify.eq_def, hnum]

theorem Classify_op_false (c : Char) (hc : c ∈ opChars) (rest : List Char) :
    Classify (c :: rest) false = some (.op c, rest) := by
  fin_cases hc <;> rfl

theorem Classify_op_before_s (c : Char) (hc : c ∈ opChars) (tl : List Char) (b : Bool) :
    Classify (c :: 's' :: tl) b = some (.op c, 's' :: tl) := by
  fin_cases hc <;> cases b <;> rfl

theorem Classify_openP (rest : List Char) (b : Bool) :
    Classify ('(' :: rest) b = some (.openP, rest) := rfl

theorem Classify_closeP (rest : List Char) (b : Bool) :
    Classify (')' :: rest) b = some (.closeP, rest) := rfl

theorem Classify_symVar {rest : List Char} (h : restOK rest = true) (b : Bool) :
    Classify ('s' :: rest) b = some (.symVar, rest) := by
  cases rest with
  | nil => cases b <;> rfl
  | cons c cs =>
      simp only [restOK, Bool.or_eq_true, decide_eq_true_eq, beq_iff_eq] at h
      rcases h with h' | h'
      · fin_cases h' <;> cases b <;> rfl
      · subst h'
        cases b <;> rfl

end ExpressionTree

end LibPlot2D

namespace LibPlot2D

namespace ExpressionTree

theorem startsWithS_print {P : PTree} (h : startsWithS P = true) :
    ∃ tl, printP P = 's' :: tl := by
  induction P with
  | leaf t =>
      cases t <;> first
        | exact ⟨[], rfl⟩
        | simp [startsWithS] at h
  | unary c a ih => simp [startsWithS] at h
  | node c a b iha ihb =>
      rw [startsWithS] at h
      obtain ⟨tl, htl⟩ := iha h
      exact ⟨tl ++ c :: printP b, by rw [printP, htl]; rfl⟩
  | wrap a ih => simp [startsWithS] at h

theorem Tokenize_printP : ∀ (P : PTree), TreeOK P = true → ∀ (rest : List Char),
    restOK rest = true →
    Tokenize (printP P ++ rest) true =
      match Tokenize rest false with
      | .error e => .error e
      | .ok ts => .ok (tokensOfP P ++ ts) := by
  intro P
  induction P with
  | leaf t =>
      intro hOK rest hrest
      match t, hOK with
      | .num q, hOK =>
          have hden : q.den = 1 := by
            simpa [TreeOK, OperandTok] using hOK
          rw [printP]
          by_cases hneg : q.num < 0
          · rw [if_pos hneg, List.cons_append]
            rw [Tokenize_cons, Classify_neg_natChars hden hneg hrest]
            rfl
          · rw [if_neg hneg]
            obtain ⟨c, ds, hcd⟩ : ∃ c ds,
                natChars q.num.natAbs ++ rest = c :: ds :=
              match hx : natChars q.num.natAbs ++ rest with
              | [] => absurd (List.append_eq_nil.mp hx).1 (natChars_ne_nil _)
              | c :: ds => ⟨c, ds, rfl⟩
            rw [hcd, Tokenize_cons, ← hcd, Classify_natChars hden (by omega) hrest]
            rfl
      | .symVar, _ =>
          rw [printP, List.singleton_append, Tokenize_cons, Classify_symVar hrest]
          rfl
      | .dref i, hOK => simp [TreeOK, OperandTok] at hOK
      | .fn nm, hOK => simp [TreeOK, OperandTok] at hOK
      | .op c, hOK => simp [TreeOK, OperandTok] at hOK
      | .openP, hOK => simp [TreeOK, OperandTok] at hOK
      | .closeP, hOK => simp [TreeOK, OperandTok] at hOK
  | unary c a ih =>
      intro hOK rest hrest
      simp only [TreeOK, Bool.and_eq_true, decide_eq_true_eq] at hOK
      obtain ⟨⟨⟨hc, ha⟩, hs⟩, hexp⟩ := hOK
      obtain ⟨tl, htl⟩ := startsWithS_print hs
      rw [printP, List.cons_append, htl, List.cons_append]
      rw [Tokenize_cons, Classify_op_before_s c hc]
      show (match Tokenize ('s' :: (tl ++ rest)) true with
        | Except.error e => Except.error e
        | Except.ok ts => Except.ok (Token.op c :: ts)) = _
      rw [← List.cons_append, ← htl]
      rw [ih ha rest hrest]
      cases Tokenize rest false <;> simp [tokensOfP]
  | node c a b iha ihb =>
      intro hOK rest hrest
      simp only [TreeOK, Bool.and_eq_true, decide_eq_true_eq] at hOK
      obtain ⟨⟨⟨⟨hc, ha⟩, hb⟩, hres⟩, hexp⟩ := hOK
      have hrest1 : restOK (c :: (printP b ++ rest)) = true := by
        rw [restOK]
        simp [hc]
      have hstep : Tokenize (c :: (printP b ++ rest)) false =
          match Tokenize rest false with
          | .error e => .error e
          | .ok ts => .ok (.op c :: (tokensOfP b ++ ts)) := by
        rw [Tokenize_cons, Classify_op_false c hc]
        show (match Tokenize (printP b ++ rest) true with
          | Except.error e => Except.error e
          | Except.ok ts => Except.ok (Token.op c :: ts)) = _
        rw [ihb hb rest hrest]
        cases Tokenize rest false <;> rfl
      rw [printP, List.append_assoc, List.cons_append]
      rw [iha ha _ hrest1, hstep]
      cases Tokenize rest false <;> simp [tokensOfP, List.append_assoc]
  | wrap a ih =>
      intro hOK rest hrest
      rw [TreeOK] at hOK
      rw [printP, List.cons_append, List.append_assoc, List.singleton_append]
      rw [Tokenize_cons, Classify_openP]
      show (match Tokenize (printP a ++ (')' :: rest)) true with
        | Except.error e => Except.error e
        | Except.ok ts => Except.ok (Token.openP :: ts)) = _
      have hrest1 : restOK (')' :: rest) = true := by rw [restOK]; simp
      rw [ih hOK _ hrest1]
      have hclose : Tokenize (')' :: rest) false =
          match Tokenize rest false with
          | .error e => .error e
          | .ok ts => .ok (.closeP :: ts) := by
        rw [Tokenize_cons, Classify_closeP]
        rfl
      rw [hclose]
      cases Tokenize rest false <;> simp [tokensOfP, List.append_assoc]

end ExpressionTree

end LibPlot2D

namespace LibPlot2D

namespace ExpressionTree

theorem flush_res_postfix (P : PTree) :
    flushP P ++ (resP P).map Token.op = postfixOfP P := by
  induction P with
  | leaf t => rfl
  | unary c a ih =>
      rw [flushP, resP, postfixOfP, ← ih]
      simp
  | node c a b iha ihb =>
      rw [flushP, resP, postfixOfP, ← iha, ← ihb]
      simp
  | wrap a ih =>
      rw [flushP, resP, postfixOfP, ← ih]
      simp

theorem processOperator_res (c : Char) (R : List Char) : ∀ (st : List StackE),
    (∀ x ∈ R, OperatorShift (.sop x) c = true) →
    (∀ t, st.head? = some (.sop t) → OperatorShift (.sop t) c = false) →
    ProcessOperator c (R.map .sop ++ st) = (R.map Token.op, .sop c :: st) := by
  induction R with
  | nil =>
      intro st hR hst
      simp only [List.map_nil, List.nil_append]
      cases st with
      | nil => rfl
      | cons e st' =>
          cases e with
          | sop t =>
              rw [ProcessOperator, if_neg (by rw [hst t rfl]; exact Bool.false_ne_true)]
          | sparen => rfl
          | sfn nm => rfl
  | cons x R ih =>
      intro st hR hst
      simp only [List.map_cons, List.cons_append]
      rw [ProcessOperator, if_pos (hR x (List.mem_cons_self x R))]
      rw [ih st (fun y hy => hR y (List.mem_cons_of_mem _ hy)) hst]

theorem processClose_res (R : List Char) : ∀ (st : List StackE),
    (∀ nm, st.head? ≠ some (.sfn nm)) →
    ProcessCloseParenthese (R.map .sop ++ (.sparen :: st)) = .ok (R.map Token.op, st) := by
  induction R with
  | nil =>
      intro st hst
      simp only [List.map_nil, List.nil_append]
      cases st with
      | nil => rfl
      | cons e st' =>
          cases e with
          | sop t => rfl
          | sparen => rfl
          | sfn nm => exact absurd rfl (hst nm)
  | cons x R ih =>
      intro st hst
      simp only [List.map_cons, List.cons_append]
      rw [ProcessCloseParenthese, ih st hst]

theorem emptyStack_res (R : List Char) :
    EmptyStackToQueue (R.map .sop) = .ok (R.map Token.op) := by
  induction R with
  | nil => rfl
  | cons x R ih =>
      simp only [List.map_cons]
      rw [EmptyStackToQueue, ih]

theorem ShuntGo_printP (P : PTree) : TreeOK P = true → ∀ (st : List StackE)
    (rest : List Token),
    (∀ nm, StackE.sfn nm ∉ st) →
    (∀ y ∈ exposedOps P, ∀ t, st.head? = some (.sop t) → OperatorShift (.sop t) y = false) →
    ShuntGo (tokensOfP P ++ rest) st =
      match ShuntGo rest ((resP P).map .sop ++ st) with
      | .error e => .error e
      | .ok out => .ok (flushP P ++ out) := by
  induction P with
  | leaf t =>
      intro hOK st rest hnofn hsafe
      match t, hOK with
      | .num q, _ =>
          rw [tokensOfP, List.singleton_append, ShuntGo]
          simp only [resP, List.map_nil, List.nil_append, flushP]
          cases ShuntGo rest st <;> rfl
      | .symVar, _ =>
          rw [tokensOfP, List.singleton_append, ShuntGo]
          simp only [resP, List.map_nil, List.nil_append, flushP]
          cases ShuntGo rest st <;> rfl
      | .dref i, hOK => simp [TreeOK, OperandTok] at hOK
      | .fn nm, hOK => simp [TreeOK, OperandTok] at hOK
      | .op c, hOK => simp [TreeOK, OperandTok] at hOK
      | .openP, hOK => simp [TreeOK, OperandTok] at hOK
      | .closeP, hOK => simp [TreeOK, OperandTok] at hOK
  | unary c a ih =>
      intro hOK st rest hnofn hsafe
      simp only [TreeOK, Bool.and_eq_true, decide_eq_true_eq] at hOK
      obtain ⟨⟨⟨hc, ha⟩, hs⟩, hexp⟩ := hOK
      rw [tokensOfP, List.cons_append, ShuntGo]
      have hpo : ProcessOperator c st = ([], .sop c :: st) := by
        have := processOperator_res c [] st (by simp)
          (fun t ht => hsafe c (by rw [exposedOps]; exact List.mem_cons_self c _) t ht)
        simpa using this
      rw [hpo]
      have hsafe_a : ∀ y ∈ exposedOps a, ∀ t,
          (StackE.sop c :: st).head? = some (.sop t) → OperatorShift (.sop t) y = false := by
        intro y hy t ht
        simp only [List.head?_cons, Option.some.injEq, StackE.sop.injEq] at ht
        subst ht
        have := List.all_eq_true.mp hexp y hy
        simpa using this
      have hnofn_a : ∀ nm, StackE.sfn nm ∉ (StackE.sop c :: st) := by
        intro nm hmem
        rcases List.mem_cons.mp hmem with h | h
        · exact absurd h (by simp)
        · exact hnofn nm h
      rw [ih ha (.sop c :: st) rest hnofn_a hsafe_a]
      rw [resP, flushP]
      simp only [List.map_append, List.map_cons, List.map_nil, List.append_assoc,
        List.singleton_append]
      cases ShuntGo rest ((resP a).map StackE.sop ++ (StackE.sop c :: st)) <;> simp
  | node c a b iha ihb =>
      intro hOK st rest hnofn hsafe
      simp only [TreeOK, Bool.and_eq_true, decide_eq_true_eq] at hOK
      obtain ⟨⟨⟨⟨hc, ha⟩, hb⟩, hres⟩, hexp⟩ := hOK
      rw [tokensOfP, List.append_assoc, List.cons_append]
      have hsafe_a : ∀ y ∈ exposedOps a, ∀ t,
          st.head? = some (.sop t) → OperatorShift (.sop t) y = false := by
        intro y hy t ht
        exact hsafe y (by rw [exposedOps]; exact List.mem_append_left _ hy) t ht
      rw [iha ha st (.op c :: (tokensOfP b ++ rest)) hnofn hsafe_a]
      rw [ShuntGo]
      have hpo : ProcessOperator c ((resP a).map .sop ++ st) =
          ((resP a).map Token.op, .sop c :: st) := by
        refine processOperator_res c (resP a) st ?_ ?_
        · intro x hx
          exact List.all_eq_true.mp hres x hx
        · intro t ht
          have hcmem : c ∈ exposedOps (PTree.node c a b) := by
            rw [exposedOps]
            exact List.mem_append_right _ (List.mem_cons_self c _)
          exact hsafe c hcmem t ht
      rw [hpo]
      have hsafe_b : ∀ y ∈ exposedOps b, ∀ t,
          (StackE.sop c :: st).head? = some (.sop t) → OperatorShift (.sop t) y = false := by
        intro y hy t ht
        simp only [List.head?_cons, Option.some.injEq, StackE.sop.injEq] at ht
        subst ht
        have := List.all_eq_true.mp hexp y hy
        simpa using this
      have hnofn_b : ∀ nm, StackE.sfn nm ∉ (StackE.sop c :: st) := by
        intro nm hmem
        rcases List.mem_cons.mp hmem with h | h
        · exact absurd h (by simp)
        · exact hnofn nm h
      rw [ihb hb (.sop c :: st) rest hnofn_b hsafe_b]
      rw [resP, flushP]
      simp only [List.map_append, List.map_cons, List.map_nil, List.append_assoc,
        List.singleton_append]
      cases ShuntGo rest ((resP b).map StackE.sop ++ (StackE.sop c :: st)) <;> simp
  | wrap a ih =>
      intro hOK st rest hnofn hsafe
      rw [TreeOK] at hOK
      rw [tokensOfP, List.cons_append, List.append_assoc, List.singleton_append, ShuntGo]
      have hsafe_a : ∀ y ∈ exposedOps a, ∀ t,
          (StackE.sparen :: st).head? = some (.sop t) → OperatorShift (.sop t) y = false := by
        intro y hy t ht
        simp at ht
      have hnofn_a : ∀ nm, StackE.sfn nm ∉ (StackE.sparen :: st) := by
        intro nm hmem
        rcases List.mem_cons.mp hmem with h | h
        · exact absurd h (by simp)
        · exact hnofn nm h
      rw [ih hOK (.sparen :: st) (.closeP :: rest) hnofn_a hsafe_a]
      rw [ShuntGo]
      have hclose : ProcessCloseParenthese ((resP a).map .sop ++ (.sparen :: st)) =
          .ok ((resP a).map Token.op, st) := by
        refine processClose_res (resP a) st ?_
        intro nm hnm
        cases st with
        | nil => simp at hnm
        | cons e st' =>
            simp only [List.head?_cons, Option.some.injEq] at hnm
            exact hnofn nm (by rw [hnm]; exact List.mem_cons_self _ _)
      rw [hclose]
      rw [resP, flushP]
      simp only [List.map_nil, List.nil_append]
      cases ShuntGo rest st <;> simp

end ExpressionTree

end LibPlot2D

namespace LibPlot2D

namespace ExpressionTree

theorem parenDepth_append (l1 : List Char) : ∀ (l2 : List Char) (d : ℤ),
    parenDepth d (l1 ++ l2) = parenDepth (parenDepth d l1) l2 := by
  induction l1 with
  | nil => intro l2 d; rfl
  | cons c cs ih =>
      intro l2 d
      rw [List.cons_append, parenDepth, parenDepth, ih]

theorem parenDepth_no_paren {cs : List Char}
    (h : ∀ c ∈ cs, c ≠ '(' ∧ c ≠ ')') : ∀ d, parenDepth d cs = d := by
  induction cs with
  | nil => intro d; rfl
  | cons c cs ih =>
      intro d
      obtain ⟨h1, h2⟩ := h c (List.mem_cons_self c cs)
      rw [parenDepth, if_neg h1, if_neg h2]
      exact ih (fun c hc => h c (List.mem_cons_of_mem _ hc)) d

theorem digit_not_paren {c : Char} (h : c.isDigit = true) : c ≠ '(' ∧ c ≠ ')' := by
  constructor <;> intro heq <;> rw [heq] at h <;> exact absurd h (by decide)

theorem parenDepth_printP (P : PTree) (hOK : TreeOK P = true) :
    ∀ d, parenDepth d (printP P) = d := by
  induction P with
  | leaf t =>
      intro d
      match t, hOK with
      | .num q, _ =>
          rw [printP]
          by_cases hneg : q.num < 0
          · rw [if_pos hneg]
            refine parenDepth_no_paren ?_ d
            intro c hc
            rcases List.mem_cons.mp hc with h | h
            · subst h; exact ⟨by decide, by decide⟩
            · exact digit_not_paren (natChars_all_digits _ c h)
          · rw [if_neg hneg]
            refine parenDepth_no_paren ?_ d
            intro c hc
            exact digit_not_paren (natChars_all_digits _ c hc)
      | .symVar, _ =>
          rw [printP]
          exact parenDepth_no_paren (by intro c hc; simp at hc; subst hc; exact ⟨by decide, by decide⟩) d
      | .dref i, hOK => simp [TreeOK, OperandTok] at hOK
      | .fn nm, hOK => simp [TreeOK, OperandTok] at hOK
      | .op c, hOK => simp [TreeOK, OperandTok] at hOK
      | .openP, hOK => simp [TreeOK, OperandTok] at hOK
      | .closeP, hOK => simp [TreeOK, OperandTok] at hOK
  | unary c a ih =>
      intro d
      simp only [TreeOK, Bool.and_eq_true, decide_eq_true_eq] at hOK
      obtain ⟨⟨⟨hc, ha⟩, hs⟩, hexp⟩ := hOK
      rw [printP, parenDepth]
      have hcp : c ≠ '(' ∧ c ≠ ')' := by fin_cases hc <;> exact ⟨by decide, by decide⟩
      rw [if_neg hcp.1, if_neg hcp.2]
      exact ih ha d
  | node c a b iha ihb =>
      intro d
      simp only [TreeOK, Bool.and_eq_true, decide_eq_true_eq] at hOK
      obtain ⟨⟨⟨⟨hc, ha⟩, hb⟩, hres⟩, hexp⟩ := hOK
      rw [printP, parenDepth_append, iha ha, parenDepth]
      have hcp : c ≠ '(' ∧ c ≠ ')' := by fin_cases hc <;> exact ⟨by decide, by decide⟩
      rw [if_neg hcp.1, if_neg hcp.2]
      exact ihb hb d
  | wrap a ih =>
      intro d
      rw [TreeOK] at hOK
      rw [printP, parenDepth, if_pos rfl, parenDepth_append, ih hOK]
      rw [parenDepth, if_neg (by decide), if_pos rfl, parenDepth]
      omega

theorem printP_no_space (P : PTree) (hOK : TreeOK P = true) :
    ∀ c ∈ printP P, c ≠ ' ' := by
  induction P with
  | leaf t =>
      match t, hOK with
      | .num q, _ =>
          rw [printP]
          by_cases hneg : q.num < 0
          · rw [if_pos hneg]
            intro c hc
            rcases List.mem_cons.mp hc with h | h
            · subst h; decide
            · have := natChars_all_digits _ c h
              intro heq; rw [heq] at this; exact absurd this (by decide)
          · rw [if_neg hneg]
            intro c hc
            have := natChars_all_digits _ c hc
            intro heq; rw [heq] at this; exact absurd this (by decide)
      | .symVar, _ =>
          rw [printP]
          intro c hc
          simp at hc
          subst hc
          decide
      | .dref i, hOK => simp [TreeOK, OperandTok] at hOK
      | .fn nm, hOK => simp [TreeOK, OperandTok] at hOK
      | .op c, hOK => simp [TreeOK, OperandTok] at hOK
      | .openP, hOK => simp [TreeOK, OperandTok] at hOK
      | .closeP, hOK => simp [TreeOK, OperandTok] at hOK
  | unary c a ih =>
      simp only [TreeOK, Bool.and_eq_true, decide_eq_true_eq] at hOK
      obtain ⟨⟨⟨hc, ha⟩, hs⟩, hexp⟩ := hOK
      rw [printP]
      intro x hx
      rcases List.mem_cons.mp hx with h | h
      · subst h; fin_cases hc <;> decide
      · exact ih ha x h
  | node c a b iha ihb =>
      simp only [TreeOK, Bool.and_eq_true, decide_eq_true_eq] at hOK
      obtain ⟨⟨⟨⟨hc, ha⟩, hb⟩, hres⟩, hexp⟩ := hOK
      rw [printP]
      intro x hx
      rcases List.mem_append.mp hx with h | h
      · exact iha ha x h
      · rcases List.mem_cons.mp h with h' | h'
        · subst h'; fin_cases hc <;> decide
        · exact ihb hb x h'
  | wrap a ih =>
      rw [TreeOK] at hOK
      rw [printP]
      intro x hx
      rcases List.mem_cons.mp hx with h | h
      · subst h; decide
      · rcases List.mem_append.mp h with h' | h'
        · exact ih hOK x h'
        · simp at h'
          subst h'
          decide

theorem EvaluateQueueN_postfixP (P : PTree) (h : NumOnly P = true) :
    ∀ (rest : List Token) (st : List NOperand) (regs : List Dataset2D) (xf : ℚ),
    EvaluateQueueN regs xf (postfixOfP P ++ rest) st =
      EvaluateQueueN regs xf rest (.scalar (denoteP P) :: st) := by
  induction P with
  | leaf t =>
      intro rest st regs xf
      match t, h with
      | .num q, _ =>
          rw [postfixOfP, List.singleton_append]
          exact EvaluateQueueN_cons_ok rfl
      | .symVar, h => simp [NumOnly] at h
      | .dref i, h => simp [NumOnly] at h
      | .fn nm, h => simp [NumOnly] at h
      | .op c, h => simp [NumOnly] at h
      | .openP, h => simp [NumOnly] at h
      | .closeP, h => simp [NumOnly] at h
  | unary c a ih => simp [NumOnly] at h
  | node c a b iha ihb =>
      intro rest st regs xf
      simp only [NumOnly, Bool.and_eq_true] at h
      obtain ⟨ha, hb⟩ := h
      rw [postfixOfP, List.append_assoc, iha ha, List.append_assoc, ihb hb,
        List.singleton_append]
      rw [denoteP]
      exact EvaluateQueueN_cons_ok rfl
  | wrap a ih =>
      intro rest st regs xf
      rw [NumOnly] at h
      rw [postfixOfP, ih h, denoteP]

end ExpressionTree

end LibPlot2D

namespace LibPlot2D

namespace ExpressionTree

theorem shift_false_of_lt {t y : Char} (ht : t ∈ opChars) (hy : y ∈ opChars)
    (h : GetPrecedence t < GetPrecedence y) : OperatorShift (.sop t) y = false := by
  fin_cases ht <;> fin_cases hy <;> revert h <;> decide

theorem shift_pow_false {t : Char} (ht : t ∈ opChars) :
    OperatorShift (.sop t) '^' = false := by
  fin_cases ht <;> decide

theorem shift_true_of_le {x c : Char} (hx : x ∈ opChars) (hc : c ∈ opChars)
    (hcn : c ≠ '^') (h : GetPrecedence c ≤ GetPrecedence x) :
    OperatorShift (.sop x) c = true := by
  fin_cases hx <;> fin_cases hc <;> revert h <;> first | decide | (intro h; exact absurd rfl hcn)

theorem prec_eq_four {y : Char} (hy : y ∈ opChars) (h : 4 ≤ GetPrecedence y) : y = '^' := by
  fin_cases hy <;> revert h <;> decide

theorem treeOfA_numOnly (e : AExpr) : NumOnly (treeOfA e) = true := by
  induction e with
  | lit n => rfl
  | paren a ih => rw [treeOfA, NumOnly]; exact ih
  | add a b iha ihb =>
      rw [treeOfA, NumOnly, Bool.and_eq_true]
      constructor <;> split <;> simp [NumOnly, iha, ihb]
  | sub a b iha ihb =>
      rw [treeOfA, NumOnly, Bool.and_eq_true]
      constructor <;> split <;> simp [NumOnly, iha, ihb]
  | mul a b iha ihb =>
      rw [treeOfA, NumOnly, Bool.and_eq_true]
      constructor <;> split <;> simp [NumOnly, iha, ihb]
  | div a b iha ihb =>
      rw [treeOfA, NumOnly, Bool.and_eq_true]
      constructor <;> split <;> simp [NumOnly, iha, ihb]
  | pow a b iha ihb =>
      rw [treeOfA, NumOnly, Bool.and_eq_true]
      constructor <;> split <;> simp [NumOnly, iha, ihb]

theorem treeOfA_denote (e : AExpr) : denoteP (treeOfA e) = AExpr.denote e := by
  induction e with
  | lit n => rfl
  | paren a ih => rw [treeOfA, denoteP, AExpr.denote]; exact ih
  | add a b iha ihb =>
      rw [treeOfA, denoteP, AExpr.denote]
      have h1 : denoteP (if a.prec < 2 then PTree.wrap (treeOfA a) else treeOfA a) =
          AExpr.denote a := by split <;> simp [denoteP, iha]
      have h2 : denoteP (if b.prec ≤ 2 then PTree.wrap (treeOfA b) else treeOfA b) =
          AExpr.denote b := by split <;> simp [denoteP, ihb]
      rw [h1, h2]
      rfl
  | sub a b iha ihb =>
      rw [treeOfA, denoteP, AExpr.denote]
      have h1 : denoteP (if a.prec < 2 then PTree.wrap (treeOfA a) else treeOfA a) =
          AExpr.denote a := by split <;> simp [denoteP, iha]
      have h2 : denoteP (if b.prec ≤ 2 then PTree.wrap (treeOfA b) else treeOfA b) =
          AExpr.denote b := by split <;> simp [denoteP, ihb]
      rw [h1, h2]
      rfl
  | mul a b iha ihb =>
      rw [treeOfA, denoteP, AExpr.denote]
      have h1 : denoteP (if a.prec < 3 then PTree.wrap (treeOfA a) else treeOfA a) =
          AExpr.denote a := by split <;> simp [denoteP, iha]
      have h2 : denoteP (if b.prec ≤ 3 then PTree.wrap (treeOfA b) else treeOfA b) =
          AExpr.denote b := by split <;> simp [denoteP, ihb]
      rw [h1, h2]
      rfl
  | div a b iha ihb =>
      rw [treeOfA, denoteP, AExpr.denote]
      have h1 : denoteP (if a.prec < 3 then PTree.wrap (treeOfA a) else treeOfA a) =
          AExpr.denote a := by split <;> simp [denoteP, iha]
      have h2 : denoteP (if b.prec ≤ 3 then PTree.wrap (treeOfA b) else treeOfA b) =
          AExpr.denote b := by split <;> simp [denoteP, ihb]
      rw [h1, h2]
      rfl
  | pow a b iha ihb =>
      rw [treeOfA, denoteP, AExpr.denote]
      have h1 : denoteP (if a.prec ≤ 4 then PTree.wrap (treeOfA a) else treeOfA a) =
          AExpr.denote a := by split <;> simp [denoteP, iha]
      have h2 : denoteP (if b.prec < 4 then PTree.wrap (treeOfA b) else treeOfA b) =
          AExpr.denote b := by split <;> simp [denoteP, ihb]
      rw [h1, h2]
      rfl

theorem treeOfA_exposed_prec (e : AExpr) : ∀ y ∈ exposedOps (treeOfA e),
    y ∈ opChars ∧ e.prec ≤ GetPrecedence y := by
  induction e with
  | lit n => intro y hy; simp [treeOfA, exposedOps] at hy
  | paren a ih => intro y hy; simp [treeOfA, exposedOps] at hy
  | add a b iha ihb =>
      intro y hy
      rw [treeOfA, exposedOps] at hy
      rcases List.mem_append.mp hy with h | h
      · revert h
        split
        · intro h; simp [exposedOps] at h
        · rename_i hpa
          intro h
          obtain ⟨h1, h2⟩ := iha y h
          exact ⟨h1, by simp [AExpr.prec]; omega⟩
      · rcases List.mem_cons.mp h with h' | h'
        · subst h'; exact ⟨by decide, by rw [AExpr.prec]; decide⟩
        · revert h'
          split
          · intro h'; simp [exposedOps] at h'
          · rename_i hpb
            intro h'
            obtain ⟨h1, h2⟩ := ihb y h'
            exact ⟨h1, by simp [AExpr.prec]; omega⟩
  | sub a b iha ihb =>
      intro y hy
      rw [treeOfA, exposedOps] at hy
      rcases List.mem_append.mp hy with h | h
      · revert h
        split
        · intro h; simp [exposedOps] at h
        · rename_i hpa
          intro h
          obtain ⟨h1, h2⟩ := iha y h
          exact ⟨h1, by simp [AExpr.prec]; omega⟩
      · rcases List.mem_cons.mp h with h' | h'
        · subst h'; exact ⟨by decide, by rw [AExpr.prec]; decide⟩
        · revert h'
          split
          · intro h'; simp [exposedOps] at h'
          · rename_i hpb
            intro h'
            obtain ⟨h1, h2⟩ := ihb y h'
            exact ⟨h1, by simp [AExpr.prec]; omega⟩
  | mul a b iha ihb =>
      intro y hy
      rw [treeOfA, exposedOps] at hy
      rcases List.mem_append.mp hy with h | h
      · revert h
        split
        · intro h; simp [exposedOps] at h
        · rename_i hpa
          intro h
          obtain ⟨h1, h2⟩ := iha y h
          exact ⟨h1, by simp [AExpr.prec]; omega⟩
      · rcases List.mem_cons.mp h with h' | h'
        · subst h'; exact ⟨by decide, by rw [AExpr.prec]; decide⟩
        · revert h'
          split
          · intro h'; simp [exposedOps] at h'
          · rename_i hpb
            intro h'
            obtain ⟨h1, h2⟩ := ihb y h'
            exact ⟨h1, by simp [AExpr.prec]; omega⟩
  | div a b iha ihb =>
      intro y hy
      rw [treeOfA, exposedOps] at hy
      rcases List.mem_append.mp hy with h | h
      · revert h
        split
        · intro h; simp [exposedOps] at h
        · rename_i hpa
          intro h
          obtain ⟨h1, h2⟩ := iha y h
          exact ⟨h1, by simp [AExpr.prec]; omega⟩
      · rcases List.mem_cons.mp h with h' | h'
        · subst h'; exact ⟨by decide, by rw [AExpr.prec]; decide⟩
        · revert h'
          split
          · intro h'; simp [exposedOps] at h'
          · rename_i hpb
            intro h'
            obtain ⟨h1, h2⟩ := ihb y h'
            exact ⟨h1, by simp [AExpr.prec]; omega⟩
  | pow a b iha ihb =>
      intro y hy
      rw [treeOfA, exposedOps] at hy
      rcases List.mem_append.mp hy with h | h
      · revert h
        split
        · intro h; simp [exposedOps] at h
        · rename_i hpa
          intro h
          obtain ⟨h1, h2⟩ := iha y h
          exact ⟨h1, by simp [AExpr.prec]; omega⟩
      · rcases List.mem_cons.mp h with h' | h'
        · subst h'; exact ⟨by decide, by rw [AExpr.prec]; decide⟩
        · revert h'
          split
          · intro h'; simp [exposedOps] at h'
          · rename_i hpb
            intro h'
            obtain ⟨h1, h2⟩ := ihb y h'
            exact ⟨h1, by simp [AExpr.prec]; omega⟩

theorem treeOfA_res_prec (e : AExpr) : ∀ x ∈ resP (treeOfA e),
    x ∈ opChars ∧ e.prec ≤ GetPrecedence x := by
  induction e with
  | lit n => intro x hx; simp [treeOfA, resP] at hx
  | paren a ih => intro x hx; simp [treeOfA, resP] at hx
  | add a b iha ihb =>
      intro x hx
      rw [treeOfA, resP] at hx
      rcases List.mem_append.mp hx with h | h
      · revert h
        split
        · intro h; simp [resP] at h
        · rename_i hpb
          intro h
          obtain ⟨h1, h2⟩ := ihb x h
          exact ⟨h1, by simp [AExpr.prec]; omega⟩
      · simp only [List.mem_singleton] at h
        subst h
        exact ⟨by decide, by rw [AExpr.prec]; decide⟩
  | sub a b iha ihb =>
      intro x hx
      rw [treeOfA, resP] at hx
      rcases List.mem_append.mp hx with h | h
      · revert h
        split
        · intro h; simp [resP] at h
        · rename_i hpb
          intro h
          obtain ⟨h1, h2⟩ := ihb x h
          exact ⟨h1, by simp [AExpr.prec]; omega⟩
      · simp only [List.mem_singleton] at h
        subst h
        exact ⟨by decide, by rw [AExpr.prec]; decide⟩
  | mul a b iha ihb =>
      intro x hx
      rw [treeOfA, resP] at hx
      rcases List.mem_append.mp hx with h | h
      · revert h
        split
        · intro h; simp [resP] at h
        · rename_i hpb
          intro h
          obtain ⟨h1, h2⟩ := ihb x h
          exact ⟨h1, by simp [AExpr.prec]; omega⟩
      · simp only [List.mem_singleton] at h
        subst h
        exact ⟨by decide, by rw [AExpr.prec]; decide⟩
  | div a b iha ihb =>
      intro x hx
      rw [treeOfA, resP] at hx
      rcases List.mem_append.mp hx with h | h
      · revert h
        split
        · intro h; simp [resP] at h
        · rename_i hpb
          intro h
          obtain ⟨h1, h2⟩ := ihb x h
          exact ⟨h1, by simp [AExpr.prec]; omega⟩
      · simp only [List.mem_singleton] at h
        subst h
        exact ⟨by decide, by rw [AExpr.prec]; decide⟩
  | pow a b iha ihb =>
      intro x hx
      rw [treeOfA, resP] at hx
      rcases List.mem_append.mp hx with h | h
      · revert h
        split
        · intro h; simp [resP] at h
        · rename_i hpb
          intro h
          obtain ⟨h1, h2⟩ := ihb x h
          exact ⟨h1, by simp [AExpr.prec]; omega⟩
      · simp only [List.mem_singleton] at h
        subst h
        exact ⟨by decide, by rw [AExpr.prec]; decide⟩

end ExpressionTree

end LibPlot2D

namespace LibPlot2D

namespace ExpressionTree

theorem opChars_prec_le_four {x : Char} (hx : x ∈ opChars) : GetPrecedence x ≤ 4 := by
  fin_cases hx <;> decide

theorem TreeOK_node_aux (c : Char) (L R : PTree) (hc : c ∈ opChars)
    (hOKL : TreeOK L = true) (hOKR : TreeOK R = true)
    (hres : ∀ x ∈ resP L, OperatorShift (.sop x) c = true)
    (hexp : ∀ y ∈ exposedOps R, OperatorShift (.sop c) y = false) :
    TreeOK (.node c L R) = true := by
  rw [TreeOK]
  simp only [Bool.and_eq_true, decide_eq_true_eq]
  refine ⟨⟨⟨⟨hc, hOKL⟩, hOKR⟩, ?_⟩, ?_⟩
  · exact List.all_eq_true.mpr hres
  · refine List.all_eq_true.mpr ?_
    intro y hy
    rw [hexp y hy]
    rfl

theorem treeOfA_TreeOK (e : AExpr) : TreeOK (treeOfA e) = true := by
  induction e with
  | lit n => simp [treeOfA, TreeOK, OperandTok, Rat.den_natCast]
  | paren a ih =>
      rw [treeOfA, TreeOK]
      exact ih
  | add a b iha ihb =>
      rw [treeOfA]
      refine TreeOK_node_aux _ _ _ (by decide) ?_ ?_ ?_ ?_
      · split
        · simp only [TreeOK]
          exact iha
        · exact iha
      · split
        · simp only [TreeOK]
          exact ihb
        · exact ihb
      · split
        · intro x hx
          simp [resP] at hx
        · rename_i hpa
          intro x hx
          obtain ⟨h1, h2⟩ := treeOfA_res_prec a x hx
          refine shift_true_of_le h1 (by decide) (by decide) ?_
          have hge : 2 ≤ a.prec := by omega
          calc GetPrecedence '+' = 2 := by decide
            _ ≤ GetPrecedence x := by omega
      · split
        · intro y hy
          simp [exposedOps] at hy
        · rename_i hpb
          intro y hy
          obtain ⟨h1, h2⟩ := treeOfA_exposed_prec b y hy
          refine shift_false_of_lt (by decide) h1 ?_
          calc GetPrecedence '+' = 2 := by decide
            _ < GetPrecedence y := by omega
  | sub a b iha ihb =>
      rw [treeOfA]
      refine TreeOK_node_aux _ _ _ (by decide) ?_ ?_ ?_ ?_
      · split
        · simp only [TreeOK]
          exact iha
        · exact iha
      · split
        · simp only [TreeOK]
          exact ihb
        · exact ihb
      · split
        · intro x hx
          simp [resP] at hx
        · rename_i hpa
          intro x hx
          obtain ⟨h1, h2⟩ := treeOfA_res_prec a x hx
          refine shift_true_of_le h1 (by decide) (by decide) ?_
          have hge : 2 ≤ a.prec := by omega
          calc GetPrecedence '-' = 2 := by decide
            _ ≤ GetPrecedence x := by omega
      · split
        · intro y hy
          simp [exposedOps] at hy
        · rename_i hpb
          intro y hy
          obtain ⟨h1, h2⟩ := treeOfA_exposed_prec b y hy
          refine shift_false_of_lt (by decide) h1 ?_
          calc GetPrecedence '-' = 2 := by decide
            _ < GetPrecedence y := by omega
  | mul a b iha ihb =>
      rw [treeOfA]
      refine TreeOK_node_aux _ _ _ (by decide) ?_ ?_ ?_ ?_
      · split
        · simp only [TreeOK]
          exact iha
        · exact iha
      · split
        · simp only [TreeOK]
          exact ihb
        · exact ihb
      · split
        · intro x hx
          simp [resP] at hx
        · rename_i hpa
          intro x hx
          obtain ⟨h1, h2⟩ := treeOfA_res_prec a x hx
          refine shift_true_of_le h1 (by decide) (by decide) ?_
          have hge : 3 ≤ a.prec := by omega
          calc GetPrecedence '*' = 3 := by decide
            _ ≤ GetPrecedence x := by omega
      · split
        · intro y hy
          simp [exposedOps] at hy
        · rename_i hpb
          intro y hy
          obtain ⟨h1, h2⟩ := treeOfA_exposed_prec b y hy
          refine shift_false_of_lt (by decide) h1 ?_
          calc GetPrecedence '*' = 3 := by decide
            _ < GetPrecedence y := by omega
  | div a b iha ihb =>
      rw [treeOfA]
      refine TreeOK_node_aux _ _ _ (by decide) ?_ ?_ ?_ ?_
      · split
        · simp only [TreeOK]
          exact iha
        · exact iha
      · split
        · simp only [TreeOK]
          exact ihb
        · exact ihb
      · split
        · intro x hx
          simp [resP] at hx
        · rename_i hpa
          intro x hx
          obtain ⟨h1, h2⟩ := treeOfA_res_prec a x hx
          refine shift_true_of_le h1 (by decide) (by decide) ?_
          have hge : 3 ≤ a.prec := by omega
          calc GetPrecedence '/' = 3 := by decide
            _ ≤ GetPrecedence x := by omega
      · split
        · intro y hy
          simp [exposedOps] at hy
        · rename_i hpb
          intro y hy
          obtain ⟨h1, h2⟩ := treeOfA_exposed_prec b y hy
          refine shift_false_of_lt (by decide) h1 ?_
          calc GetPrecedence '/' = 3 := by decide
            _ < GetPrecedence y := by omega
  | pow a b iha ihb =>
      rw [treeOfA]
      refine TreeOK_node_aux _ _ _ (by decide) ?_ ?_ ?_ ?_
      · split
        · simp only [TreeOK]
          exact iha
        · exact iha
      · split
        · simp only [TreeOK]
          exact ihb
        · exact ihb
      · split
        · intro x hx
          simp [resP] at hx
        · rename_i hpa
          intro x hx
          obtain ⟨h1, h2⟩ := treeOfA_res_prec a x hx
          have h4 := opChars_prec_le_four h1
          have h5 : a.prec = 5 := by
            cases a <;> simp [AExpr.prec] at hpa ⊢ <;> omega
          omega
      · split
        · intro y hy
          simp [exposedOps] at hy
        · rename_i hpb
          intro y hy
          obtain ⟨h1, h2⟩ := treeOfA_exposed_prec b y hy
          have h4 := opChars_prec_le_four h1
          have hy4 : GetPrecedence y = 4 := by omega
          have : y = '^' := prec_eq_four h1 (by omega)
          subst this
          decide

end ExpressionTree

end LibPlot2D

namespace LibPlot2D

namespace ExpressionTree

theorem Tokenize_printP_nil (P : PTree) (hOK : TreeOK P = true) :
    Tokenize (printP P) true = .ok (tokensOfP P) := by
  have h := Tokenize_printP P hOK [] rfl
  rw [List.append_nil] at h
  rw [show Tokenize ([] : List Char) false = .ok [] from rfl] at h
  simpa using h

theorem ShuntGo_printP_nil (P : PTree) (hOK : TreeOK P = true) :
    ShuntGo (tokensOfP P) [] = .ok (postfixOfP P) := by
  have h := ShuntGo_printP P hOK [] [] (by intro nm hm; simp at hm)
    (by intro y hy t ht; simp at ht)
  rw [List.append_nil] at h
  rw [h]
  have h1 : ShuntGo ([] : List Token) ((resP P).map .sop ++ []) =
      .ok ((resP P).map Token.op) := by
    rw [List.append_nil]
    show EmptyStackToQueue ((resP P).map .sop) = _
    exact emptyStack_res (resP P)
  rw [h1]
  show Except.ok (flushP P ++ (resP P).map Token.op) = _
  rw [ flush_res_postfix]

theorem ParseExpression_printP (P : PTree) (hOK : TreeOK P = true) :
    ParseExpression (printP P) = .ok (postfixOfP P) := by
  have hbal : ParenthesesBalanced (printP P) = true := by
    rw [ParenthesesBalanced, parenDepth_printP P hOK 0]
    decide
  rw [ParseExpression, if_pos hbal, Tokenize_printP_nil P hOK]
  exact ShuntGo_printP_nil P hOK

/-- Every precedence-printed reference expression is solved by the
numeric evaluator to exactly its standard denotation, for every
registry and x-axis factor. -/
theorem Solve_printA (e : AExpr) (regs : List Dataset2D) (xf : ℚ) :
    Solve (printA e) regs xf = .ok (.scalar (AExpr.denote e)) := by
  have hOK := treeOfA_TreeOK e
  have hfilter : (printA e).toList.filter (fun c => c ≠ ' ') = printP (treeOfA e) := by
    show (printP (treeOfA e)).filter (fun c => c ≠ ' ') = printP (treeOfA e)
    refine List.filter_eq_self.mpr ?_
    intro c hc
    simpa using printP_no_space _ hOK c hc
  show (match ParseExpression ((printA e).toList.filter (fun c => c ≠ ' ')) with
    | Except.error er => Except.error er
    | Except.ok post => EvaluateExpressionN regs xf post) = _
  rw [hfilter, ParseExpression_printP _ hOK]
  show EvaluateExpressionN regs xf (postfixOfP (treeOfA e)) = _
  have heval : EvaluateQueueN regs xf (postfixOfP (treeOfA e)) [] =
      .ok [.scalar (denoteP (treeOfA e))] := by
    have h := EvaluateQueueN_postfixP (treeOfA e) (treeOfA_numOnly e) [] [] regs xf
    rw [List.append_nil] at h
    rw [h]
    rfl
  rw [EvaluateExpressionN, heval, treeOfA_denote]

/-- C1: every well-formed numeric infix expression (arbitrary unsigned
decimal literals, the five operators, arbitrary parenthesization,
printed with standard precedence rules) is solved to its standard
infix denotation — `*`/`/` bind tighter than `+`/`-` and parentheses
override precedence; in particular `"2+3*4"` gives 14 and
`"(2+3)*4"` gives 20. -/
theorem infix_precedence_semantics :
    (∀ (e : AExpr) (regs : List Dataset2D) (xf : ℚ),
      Solve (printA e) regs xf = .ok (.scalar (AExpr.denote e))) ∧
    Solve "2+3*4" [] 1 = .ok (.scalar (.fin 14)) ∧
    Solve "(2+3)*4" [] 1 = .ok (.scalar (.fin 20)) :=
  ⟨Solve_printA, rfl, rfl⟩

theorem printP_leaf_natCast (n : ℕ) : printP (.leaf (.num (n : ℚ))) = natChars n := by
  rw [printP, if_neg (by simp)]
  simp

/-- C2: the power operator is right-associative with the highest
precedence: a stacked operator pops on an incoming operator of lower
or equal precedence, except that the incoming `^` requires strictly
greater; consequently every `a^b^c` evaluates as `a^(b^c)`, and
`"2^3^2"` gives 512, not 64. -/
theorem power_right_assoc_highest :
    IsLeftAssociative '^' = false ∧
    (∀ c ∈ opChars, GetPrecedence c ≤ GetPrecedence '^') ∧
    (∀ t c, t ∈ opChars → c ∈ opChars →
      OperatorShift (.sop t) c =
        if c = '^' then decide (GetPrecedence c < GetPrecedence t)
        else decide (GetPrecedence c ≤ GetPrecedence t)) ∧
    (∀ n1 n2 n3 : ℕ,
      Solve ⟨natChars n1 ++ '^' :: (natChars n2 ++ '^' :: natChars n3)⟩ [] 1 =
        .ok (.scalar (fpow (.fin n1) (fpow (.fin n2) (.fin n3))))) ∧
    Solve "2^3^2" [] 1 = .ok (.scalar (.fin 512)) ∧
    Solve "2^3^2" [] 1 ≠ .ok (.scalar (.fin 64)) := by
  refine ⟨rfl, ?_, ?_, ?_, rfl, ?_⟩
  · intro c hc
    fin_cases hc <;> decide
  · intro t c ht hc
    fin_cases ht <;> fin_cases hc <;> decide
  · intro n1 n2 n3
    have h := Solve_printA (.pow (.lit n1) (.pow (.lit n2) (.lit n3))) [] 1
    have hstr : printA (.pow (.lit n1) (.pow (.lit n2) (.lit n3))) =
        ⟨natChars n1 ++ '^' :: (natChars n2 ++ '^' :: natChars n3)⟩ := by
      rw [printA]
      congr 1
    rw [hstr] at h
    exact h
  · intro h
    rw [show Solve "2^3^2" [] 1 = .ok (.scalar (.fin 512)) from rfl] at h
    simp only [Except.ok.injEq, NOperand.scalar.injEq, FVal.fin.injEq] at h
    exact absurd h (by decide)

/-- Witness for C2's conditional clauses at the power operator itself. -/
theorem power_right_assoc_highest_witness :
    ('^' ∈ opChars) ∧ GetPrecedence '^' ≤ GetPrecedence '^' ∧
    OperatorShift (.sop '^') '^' =
      (if '^' = '^' then decide (GetPrecedence '^' < GetPrecedence '^')
       else decide (GetPrecedence '^' ≤ GetPrecedence '^')) :=
  ⟨by decide, power_right_assoc_highest.2.1 '^' (by decide),
   power_right_assoc_highest.2.2.1 '^' '^' (by decide) (by decide)⟩

end ExpressionTree

end LibPlot2D

namespace LibPlot2D

namespace ExpressionTree

theorem printP_leaf_intCast (p : ℤ) : printP (.leaf (.num (p : ℚ))) = intChars p := by
  rw [printP, intChars]
  simp only [Rat.num_intCast]

theorem printP_ratAbsTree (c : ℚ) : printP (ratAbsTree c) = ratAbsChars c := by
  rw [ratAbsTree, ratAbsChars]
  by_cases h : c.den = 1
  · rw [if_pos h, if_pos h, printP_leaf_natCast, List.append_nil]
  · rw [if_neg h, if_neg h, printP, printP_leaf_natCast, printP_leaf_natCast]

theorem printP_ratSignedTree (c : ℚ) :
    printP (ratSignedTree c) = (if c < 0 then ['-'] else []) ++ ratAbsChars c := by
  rw [ratSignedTree, ratAbsChars]
  by_cases h : c.den = 1
  · rw [if_pos h, if_pos h, List.append_nil, printP]
    by_cases hneg : c < 0
    · rw [if_pos (Rat.num_neg.mpr hneg), if_pos hneg]
      rfl
    · rw [if_neg (fun hh => hneg (Rat.num_neg.mp hh)), if_neg hneg]
      rfl
  · rw [if_neg h, if_neg h, printP, printP_leaf_intCast, printP_leaf_natCast, intChars]
    by_cases hneg : c < 0
    · rw [if_pos (Rat.num_neg.mpr hneg), if_pos hneg]
      rfl
    · rw [if_neg (fun hh => hneg (Rat.num_neg.mp hh)), if_neg hneg]
      rfl

theorem printP_sPowTree (p : ℤ) :
    printP (sPowTree p) = 's' :: (if p = 1 then [] else '^' :: intChars p) := by
  rw [sPowTree]
  by_cases h : p = 1
  · rw [if_pos h, if_pos h]
    rfl
  · rw [if_neg h, if_neg h, printP, printP_leaf_intCast]
    rfl

theorem printP_tailTermTree (c : ℚ) (p : ℤ) :
    printP (tailTermTree c p) = termBodyChars c p := by
  rw [tailTermTree, termBodyChars]
  by_cases hp : p = 0
  · rw [if_pos hp, if_pos hp, printP_ratAbsTree]
  · rw [if_neg hp, if_neg hp]
    by_cases h1 : c = 1 ∨ c = -1
    · rw [if_pos h1, if_pos h1, printP_sPowTree, List.nil_append]
    · rw [if_neg h1, if_neg h1, printP, printP_ratAbsTree, printP_sPowTree]
      simp

theorem printP_headTermTree (c : ℚ) (p : ℤ) :
    printP (headTermTree c p) = (if c < 0 then ['-'] else []) ++ termBodyChars c p := by
  rw [headTermTree]
  by_cases hp : p = 0
  · rw [if_pos hp, printP_ratSignedTree, termBodyChars, if_pos hp]
  · rw [if_neg hp]
    have hbody : termBodyChars c p =
        (if c = 1 ∨ c = -1 then [] else ratAbsChars c ++ ['*']) ++
          's' :: (if p = 1 then [] else '^' :: intChars p) := by
      rw [termBodyChars, if_neg hp]
    by_cases h1 : c = 1
    · subst h1
      rw [if_pos rfl, printP_sPowTree, hbody]
      norm_num
    · rw [if_neg h1]
      by_cases h2 : c = -1
      · subst h2
        rw [if_pos rfl, printP, printP_sPowTree, hbody]
        norm_num
      · rw [if_neg h2, printP, printP_ratSignedTree, printP_sPowTree, hbody,
          if_neg (show ¬(c = 1 ∨ c = -1) from by tauto)]
        by_cases hneg : c < 0
        · rw [if_pos hneg]
          simp
        · rw [if_neg hneg]
          simp

theorem TreeOK_ratAbsTree (c : ℚ) : TreeOK (ratAbsTree c) = true := by
  rw [ratAbsTree]
  by_cases h : c.den = 1
  · rw [if_pos h, TreeOK, OperandTok]
    simp
  · rw [if_neg h]
    simp [TreeOK, OperandTok, resP, exposedOps, opChars]

theorem TreeOK_ratSignedTree (c : ℚ) : TreeOK (ratSignedTree c) = true := by
  rw [ratSignedTree]
  by_cases h : c.den = 1
  · rw [if_pos h, TreeOK, OperandTok]
    simp [h]
  · rw [if_neg h]
    simp [TreeOK, OperandTok, resP, exposedOps, opChars]

theorem TreeOK_sPowTree (p : ℤ) : TreeOK (sPowTree p) = true := by
  rw [sPowTree]
  by_cases h : p = 1
  · rw [if_pos h]
    rfl
  · rw [if_neg h]
    simp [TreeOK, OperandTok, resP, exposedOps, opChars]

theorem startsWithS_sPowTree (p : ℤ) : startsWithS (sPowTree p) = true := by
  rw [sPowTree]
  by_cases h : p = 1
  · rw [if_pos h]
    rfl
  · rw [if_neg h]
    rfl

theorem resP_ratAbsTree (c : ℚ) : resP (ratAbsTree c) = [] ∨ resP (ratAbsTree c) = ['/'] := by
  rw [ratAbsTree]
  by_cases h : c.den = 1
  · rw [if_pos h]
    exact Or.inl rfl
  · rw [if_neg h]
    exact Or.inr rfl

theorem resP_ratSignedTree (c : ℚ) :
    resP (ratSignedTree c) = [] ∨ resP (ratSignedTree c) = ['/'] := by
  rw [ratSignedTree]
  by_cases h : c.den = 1
  · rw [if_pos h]
    exact Or.inl rfl
  · rw [if_neg h]
    exact Or.inr rfl

theorem resP_sPowTree (p : ℤ) : resP (sPowTree p) = [] ∨ resP (sPowTree p) = ['^'] := by
  rw [sPowTree]
  by_cases h : p = 1
  · rw [if_pos h]
    exact Or.inl rfl
  · rw [if_neg h]
    exact Or.inr rfl

theorem exposedOps_sPowTree (p : ℤ) :
    exposedOps (sPowTree p) = [] ∨ exposedOps (sPowTree p) = ['^'] := by
  rw [sPowTree]
  by_cases h : p = 1
  · rw [if_pos h]
    exact Or.inl rfl
  · rw [if_neg h]
    exact Or.inr rfl

theorem exposedOps_ratAbsTree (c : ℚ) :
    exposedOps (ratAbsTree c) = [] ∨ exposedOps (ratAbsTree c) = ['/'] := by
  rw [ratAbsTree]
  by_cases h : c.den = 1
  · rw [if_pos h]
    exact Or.inl rfl
  · rw [if_neg h]
    exact Or.inr rfl

theorem exposedOps_ratSignedTree (c : ℚ) :
    exposedOps (ratSignedTree c) = [] ∨ exposedOps (ratSignedTree c) = ['/'] := by
  rw [ratSignedTree]
  by_cases h : c.den = 1
  · rw [if_pos h]
    exact Or.inl rfl
  · rw [if_neg h]
    exact Or.inr rfl

theorem TreeOK_tailTermTree (c : ℚ) (p : ℤ) : TreeOK (tailTermTree c p) = true := by
  rw [tailTermTree]
  by_cases hp : p = 0
  · rw [if_pos hp]
    exact TreeOK_ratAbsTree c
  · rw [if_neg hp]
    by_cases h1 : c = 1 ∨ c = -1
    · rw [if_pos h1]
      exact TreeOK_sPowTree p
    · rw [if_neg h1, TreeOK, TreeOK_ratAbsTree, TreeOK_sPowTree]
      have h2 : ((resP (ratAbsTree c)).all fun x => OperatorShift (.sop x) '*') = true := by
        rcases resP_ratAbsTree c with h | h <;> rw [h] <;> decide
      have h3 : ((exposedOps (sPowTree p)).all fun y => !OperatorShift (.sop '*') y) = true := by
        rcases exposedOps_sPowTree p with h | h <;> rw [h] <;> decide
      rw [h2, h3]
      decide

theorem TreeOK_headTermTree (c : ℚ) (p : ℤ) : TreeOK (headTermTree c p) = true := by
  rw [headTermTree]
  by_cases hp : p = 0
  · rw [if_pos hp]
    exact TreeOK_ratSignedTree c
  · rw [if_neg hp]
    by_cases h1 : c = 1
    · rw [if_pos h1]
      exact TreeOK_sPowTree p
    · rw [if_neg h1]
      by_cases h2 : c = -1
      · rw [if_pos h2, TreeOK, TreeOK_sPowTree, startsWithS_sPowTree]
        have h3 : ((exposedOps (sPowTree p)).all fun y => !OperatorShift (.sop '-') y) = true := by
          rcases exposedOps_sPowTree p with h | h <;> rw [h] <;> decide
        rw [h3]
        decide
      · rw [if_neg h2, TreeOK, TreeOK_ratSignedTree, TreeOK_sPowTree]
        have h3 : ((resP (ratSignedTree c)).all fun x => OperatorShift (.sop x) '*') = true := by
          rcases resP_ratSignedTree c with h | h <;> rw [h] <;> decide
        have h4 : ((exposedOps (sPowTree p)).all fun y => !OperatorShift (.sop '*') y) = true := by
          rcases exposedOps_sPowTree p with h | h <;> rw [h] <;> decide
        rw [h3, h4]
        decide

theorem resP_tailTermTree_sub (c : ℚ) (p : ℤ) : ∀ x ∈ resP (tailTermTree c p), x ∈ opChars := by
  rw [tailTermTree]
  by_cases hp : p = 0
  · rw [if_pos hp]
    rcases resP_ratAbsTree c with h | h <;> rw [h] <;> intro x hx <;> simp at hx
    rw [hx]
    decide
  · rw [if_neg hp]
    by_cases h1 : c = 1 ∨ c = -1
    · rw [if_pos h1]
      rcases resP_sPowTree p with h | h <;> rw [h] <;> intro x hx <;> simp at hx
      rw [hx]
      decide
    · rw [if_neg h1, resP]
      intro x hx
      rcases List.mem_append.mp hx with h | h
      · rcases resP_sPowTree p with hh | hh <;> rw [hh] at h <;> simp at h
        rw [h]
        decide
      · simp at h
        rw [h]
        decide

theorem resP_headTermTree_sub (c : ℚ) (p : ℤ) :
    ∀ x ∈ resP (headTermTree c p), x ∈ opChars := by
  rw [headTermTree]
  by_cases hp : p = 0
  · rw [if_pos hp]
    rcases resP_ratSignedTree c with h | h <;> rw [h] <;> intro x hx <;> simp at hx
    rw [hx]
    decide
  · rw [if_neg hp]
    by_cases h1 : c = 1
    · rw [if_pos h1]
      rcases resP_sPowTree p with h | h <;> rw [h] <;> intro x hx <;> simp at hx
      rw [hx]
      decide
    · rw [if_neg h1]
      by_cases h2 : c = -1
      · rw [if_pos h2, resP]
        intro x hx
        rcases List.mem_append.mp hx with h | h
        · rcases resP_sPowTree p with hh | hh <;> rw [hh] at h <;> simp at h
          rw [h]
          decide
        · simp at h
          rw [h]
          decide
      · rw [if_neg h2, resP]
        intro x hx
        rcases List.mem_append.mp hx with h | h
        · rcases resP_sPowTree p with hh | hh <;> rw [hh] at h <;> simp at h
          rw [h]
          decide
        · simp at h
          rw [h]
          decide

theorem exposedOps_tailTermTree_sub (c : ℚ) (p : ℤ) :
    ∀ y ∈ exposedOps (tailTermTree c p), y = '/' ∨ y = '*' ∨ y = '^' := by
  rw [tailTermTree]
  by_cases hp : p = 0
  · rw [if_pos hp]
    rcases exposedOps_ratAbsTree c with h | h <;> rw [h] <;> intro y hy <;> simp at hy
    exact Or.inl hy
  · rw [if_neg hp]
    by_cases h1 : c = 1 ∨ c = -1
    · rw [if_pos h1]
      rcases exposedOps_sPowTree p with h | h <;> rw [h] <;> intro y hy <;> simp at hy
      exact Or.inr (Or.inr hy)
    · rw [if_neg h1, exposedOps]
      intro y hy
      rcases List.mem_append.mp hy with h | h
      · rcases exposedOps_ratAbsTree c with hh | hh <;> rw [hh] at h <;> simp at h
        exact Or.inl h
      · rcases List.mem_cons.mp h with h | h
        · exact Or.inr (Or.inl h)
        · rcases exposedOps_sPowTree p with hh | hh <;> rw [hh] at h <;> simp at h
          exact Or.inr (Or.inr h)

theorem TreeOK_polyTreeGo (rest : List Mono) : ∀ (acc : PTree), TreeOK acc = true →
    (∀ x ∈ resP acc, x ∈ opChars) → TreeOK (polyTreeGo acc rest) = true := by
  induction rest with
  | nil =>
      intro acc h _
      rw [polyTreeGo]
      exact h
  | cons m rest ih =>
      obtain ⟨c, p⟩ := m
      intro acc hOK hres
      rw [polyTreeGo]
      apply ih
      · rw [TreeOK, hOK, TreeOK_tailTermTree]
        have h1 : (decide ((if c < 0 then '-' else '+') ∈ opChars)) = true := by
          by_cases hneg : c < 0
          · rw [if_pos hneg]
            decide
          · rw [if_neg hneg]
            decide
        have h2 : ((resP acc).all fun x => OperatorShift (.sop x) (if c < 0 then '-' else '+')) = true := by
          rw [List.all_eq_true]
          intro x hx
          have hxop := hres x hx
          fin_cases hxop <;> by_cases hneg : c < 0 <;>
            simp only [if_pos, if_neg, hneg, if_true, if_false] <;> decide
        have h3 : ((exposedOps (tailTermTree c p)).all
            fun y => !OperatorShift (.sop (if c < 0 then '-' else '+')) y) = true := by
          rw [List.all_eq_true]
          intro y hy
          rcases exposedOps_tailTermTree_sub c p y hy with h | h | h <;> rw [h] <;>
            by_cases hneg : c < 0 <;>
            simp only [if_pos, if_neg, hneg, if_true, if_false] <;> decide
        rw [h1, h2, h3]
        rfl
      · intro x hx
        rw [resP] at hx
        rcases List.mem_append.mp hx with h | h
        · exact resP_tailTermTree_sub c p x h
        · simp at h
          rw [h]
          by_cases hneg : c < 0
          · rw [if_pos hneg]
            decide
          · rw [if_neg hneg]
            decide

theorem TreeOK_treeOfPoly (L : List Mono) : TreeOK (treeOfPoly L) = true := by
  cases L with
  | nil => rfl
  | cons m rest =>
      obtain ⟨c, p⟩ := m
      rw [treeOfPoly]
      exact TreeOK_polyTreeGo rest (headTermTree c p) (TreeOK_headTermTree c p)
        (resP_headTermTree_sub c p)

end ExpressionTree

end LibPlot2D

namespace LibPlot2D

namespace ExpressionTree

theorem EvaluateQueueS_cons_ok {t : Token} {st st' : List SOperand}
    (h : EvaluateNextS t st = .ok st') (ts : List Token) :
    EvaluateQueueS (t :: ts) st = EvaluateQueueS ts st' := by
  rw [EvaluateQueueS, h]

theorem evalS_num (q : ℚ) (ts : List Token) (st : List SOperand) :
    EvaluateQueueS (.num q :: ts) st = EvaluateQueueS ts (.sc q :: st) :=
  EvaluateQueueS_cons_ok
    (show EvaluateNextS (.num q) st = .ok (.sc q :: st) from rfl) ts

theorem evalS_svar (ts : List Token) (st : List SOperand) :
    EvaluateQueueS (.symVar :: ts) st = EvaluateQueueS ts (.term [(1, 1)] :: st) :=
  EvaluateQueueS_cons_ok
    (show EvaluateNextS .symVar st = .ok (.term [(1, 1)] :: st) from rfl) ts

theorem natAbs_cast_abs (n : ℤ) : ((n.natAbs : ℚ)) = |(n : ℚ)| := by
  rw [Int.cast_natAbs, Int.cast_abs]

theorem intCast_num_of_den_one {c : ℚ} (h : c.den = 1) : ((c.num : ℚ)) = c := by
  conv_rhs => rw [← Rat.num_div_den c]
  rw [h]
  norm_num

theorem abs_rat_parts (c : ℚ) : (c.num.natAbs : ℚ) / (c.den : ℚ) = |c| := by
  rw [natAbs_cast_abs, eq_comm]
  conv_lhs => rw [← Rat.num_div_den c]
  rw [abs_div, abs_of_pos (show (0:ℚ) < (c.den : ℚ) by exact_mod_cast c.pos)]

theorem evalS_ratAbsTree (c : ℚ) (ts : List Token) (st : List SOperand) :
    EvaluateQueueS (postfixOfP (ratAbsTree c) ++ ts) st =
      EvaluateQueueS ts (.sc |c| :: st) := by
  rw [ratAbsTree]
  by_cases h : c.den = 1
  · rw [if_pos h, postfixOfP, List.singleton_append, evalS_num]
    have habs : ((c.num.natAbs : ℚ)) = |c| := by
      rw [natAbs_cast_abs, intCast_num_of_den_one h]
    rw [habs]
  · rw [if_neg h]
    simp only [postfixOfP, List.append_assoc, List.cons_append, List.singleton_append,
      List.nil_append]
    rw [evalS_num, evalS_num]
    have hop : EvaluateNextS (.op '/') (.sc (c.den : ℚ) :: .sc (c.num.natAbs : ℚ) :: st) =
        .ok (.sc (qdiv ((c.num.natAbs : ℚ)) ((c.den : ℚ))) :: st) := rfl
    rw [EvaluateQueueS_cons_ok hop]
    have habs : qdiv ((c.num.natAbs : ℚ)) ((c.den : ℚ)) = |c| := by
      rw [qdiv_eq]
      exact abs_rat_parts c
    rw [habs]

theorem evalS_ratSignedTree (c : ℚ) (ts : List Token) (st : List SOperand) :
    EvaluateQueueS (postfixOfP (ratSignedTree c) ++ ts) st =
      EvaluateQueueS ts (.sc c :: st) := by
  rw [ratSignedTree]
  by_cases h : c.den = 1
  · rw [if_pos h, postfixOfP, List.singleton_append, evalS_num]
  · rw [if_neg h]
    simp only [postfixOfP, List.append_assoc, List.cons_append, List.singleton_append,
      List.nil_append]
    rw [evalS_num, evalS_num]
    have hop : EvaluateNextS (.op '/') (.sc (c.den : ℚ) :: .sc (c.num : ℚ) :: st) =
        .ok (.sc (qdiv ((c.num : ℚ)) ((c.den : ℚ))) :: st) := rfl
    rw [EvaluateQueueS_cons_ok hop]
    have hval : qdiv ((c.num : ℚ)) ((c.den : ℚ)) = c := by
      rw [qdiv_eq]
      exact Rat.num_div_den c
    rw [hval]

theorem evalS_sPowTree (p : ℤ) (ts : List Token) (st : List SOperand) :
    EvaluateQueueS (postfixOfP (sPowTree p) ++ ts) st =
      EvaluateQueueS ts (.term [(1, p)] :: st) := by
  rw [sPowTree]
  by_cases h : p = 1
  · rw [if_pos h, postfixOfP, List.singleton_append, evalS_svar, h]
  · rw [if_neg h]
    simp only [postfixOfP, List.append_assoc, List.cons_append, List.singleton_append,
      List.nil_append]
    rw [evalS_svar, evalS_num]
    have hop : EvaluateNextS (.op '^') (.sc (p : ℚ) :: .term [(1, 1)] :: st) =
        .ok (.term [(1, 1 * p)] :: st) := rfl
    rw [EvaluateQueueS_cons_ok hop, one_mul]

theorem evalS_tailTermTree (c : ℚ) (p : ℤ) (ts : List Token) (st : List SOperand) :
    EvaluateQueueS (postfixOfP (tailTermTree c p) ++ ts) st =
      EvaluateQueueS ts (termVal c p :: st) := by
  rw [tailTermTree, termVal]
  by_cases hp : p = 0
  · rw [if_pos hp, if_pos hp]
    exact evalS_ratAbsTree c ts st
  · rw [if_neg hp, if_neg hp]
    by_cases h1 : c = 1 ∨ c = -1
    · rw [if_pos h1, evalS_sPowTree]
      have habs : |c| = 1 := by rcases h1 with h | h <;> rw [h] <;> norm_num
      rw [habs]
    · rw [if_neg h1, postfixOfP, List.append_assoc, evalS_ratAbsTree, List.append_assoc,
        evalS_sPowTree]
      have hop : EvaluateNextS (.op '*') (.term [(1, p)] :: .sc |c| :: st) =
          .ok (.term [(qmul 1 |c|, p)] :: st) := rfl
      rw [List.singleton_append, EvaluateQueueS_cons_ok hop]
      have habs : qmul 1 |c| = |c| := by rw [qmul_eq]; exact one_mul _
      rw [habs]

theorem evalS_headTermTree (c : ℚ) (p : ℤ) (ts : List Token) :
    EvaluateQueueS (postfixOfP (headTermTree c p) ++ ts) [] =
      EvaluateQueueS ts [signedTermVal c p] := by
  rw [headTermTree, signedTermVal]
  by_cases hp : p = 0
  · rw [if_pos hp, if_pos hp]
    exact evalS_ratSignedTree c ts []
  · rw [if_neg hp, if_neg hp]
    by_cases h1 : c = 1
    · rw [if_pos h1, evalS_sPowTree, h1]
    · rw [if_neg h1]
      by_cases h2 : c = -1
      · rw [if_pos h2, postfixOfP, List.append_assoc, evalS_sPowTree]
        have hop : EvaluateNextS (.op '-') [.term [(1, p)]] =
            .ok [.term (negTerm [(1, p)])] := rfl
        rw [List.singleton_append, EvaluateQueueS_cons_ok hop]
        have hneg : negTerm [((1 : ℚ), p)] = [(c, p)] := by
          rw [h2]
          rfl
        rw [hneg]
      · rw [if_neg h2, postfixOfP, List.append_assoc, evalS_ratSignedTree, List.append_assoc,
          evalS_sPowTree]
        have hop : EvaluateNextS (.op '*') (.term [(1, p)] :: .sc c :: []) =
            .ok [.term [(qmul 1 c, p)]] := rfl
        rw [List.singleton_append, EvaluateQueueS_cons_ok hop]
        have hval : qmul 1 c = c := by rw [qmul_eq]; exact one_mul c
        rw [hval]

theorem applyS_append (X : SOperand) (c : ℚ) (p : ℤ)
    (h : ∀ a : ℚ, X = .sc a → p ≠ 0) :
    ApplyOperationS (if c < 0 then '-' else '+') X (termVal c p) =
      .ok (.term (rawTerms X ++ [(c, p)])) := by
  rw [termVal]
  by_cases hneg : c < 0
  · rw [if_pos hneg]
    have habs : |c| = -c := abs_of_neg hneg
    cases X with
    | sc a =>
        rw [if_neg (h a rfl)]
        have hstep : ApplyOperationS '-' (.sc a) (.term [(|c|, p)]) =
            .ok (.term ((a, 0) :: negTerm [(|c|, p)])) := rfl
        rw [hstep]
        simp [negTerm, rawTerms, habs]
    | term t =>
        by_cases hp : p = 0
        · rw [if_pos hp]
          have hstep : ApplyOperationS '-' (.term t) (.sc |c|) =
              .ok (.term (t ++ [(-|c|, 0)])) := rfl
          rw [hstep]
          simp [rawTerms, habs, hp]
        · rw [if_neg hp]
          have hstep : ApplyOperationS '-' (.term t) (.term [(|c|, p)]) =
              .ok (.term (t ++ negTerm [(|c|, p)])) := rfl
          rw [hstep]
          simp [negTerm, rawTerms, habs]
  · rw [if_neg hneg]
    have habs : |c| = c := abs_of_nonneg (le_of_not_lt hneg)
    cases X with
    | sc a =>
        rw [if_neg (h a rfl)]
        have hstep : ApplyOperationS '+' (.sc a) (.term [(|c|, p)]) =
            .ok (.term ((a, 0) :: [(|c|, p)])) := rfl
        rw [hstep]
        simp [rawTerms, habs]
    | term t =>
        by_cases hp : p = 0
        · rw [if_pos hp]
          have hstep : ApplyOperationS '+' (.term t) (.sc |c|) =
              .ok (.term (t ++ [(|c|, 0)])) := rfl
          rw [hstep]
          simp [rawTerms, habs, hp]
        · rw [if_neg hp]
          have hstep : ApplyOperationS '+' (.term t) (.term [(|c|, p)]) =
              .ok (.term (t ++ [(|c|, p)])) := rfl
          rw [hstep]
          simp [rawTerms, habs]

end ExpressionTree

end LibPlot2D

namespace LibPlot2D

namespace ExpressionTree

theorem evalS_polyTreeGo (rest : List Mono) : ∀ (P : PTree) (X : SOperand),
    (∀ ts, EvaluateQueueS (postfixOfP P ++ ts) [] = EvaluateQueueS ts [X]) →
    ((∃ u, X = .term u) ∨ ∀ m ∈ rest, m.2 ≠ 0) →
    ∃ Y : SOperand, rawTerms Y = rawTerms X ++ rest ∧
      ∀ ts, EvaluateQueueS (postfixOfP (polyTreeGo P rest) ++ ts) [] =
        EvaluateQueueS ts [Y] := by
  induction rest with
  | nil =>
      intro P X hE _
      refine ⟨X, by rw [List.append_nil], ?_⟩
      intro ts
      rw [polyTreeGo]
      exact hE ts
  | cons m rest ih =>
      obtain ⟨c, p⟩ := m
      intro P X hE hcond
      have hp0 : ∀ a : ℚ, X = .sc a → p ≠ 0 := by
        intro a hXa
        rcases hcond with ⟨u, hu⟩ | hall
        · rw [hXa] at hu
          cases hu
        · exact hall (c, p) (List.mem_cons_self _ _)
      have hstep : ∀ ts, EvaluateQueueS
          (postfixOfP (.node (if c < 0 then '-' else '+') P (tailTermTree c p)) ++ ts) [] =
          EvaluateQueueS ts [.term (rawTerms X ++ [(c, p)])] := by
        intro ts
        rw [postfixOfP, List.append_assoc, hE, List.append_assoc, evalS_tailTermTree]
        have hop : EvaluateNextS (.op (if c < 0 then '-' else '+'))
            (termVal c p :: X :: []) = .ok [.term (rawTerms X ++ [(c, p)])] := by
          show (match ApplyOperationS (if c < 0 then '-' else '+') X (termVal c p) with
            | Except.error e => Except.error e
            | Except.ok v => Except.ok (v :: [])) = _
          rw [applyS_append X c p hp0]
        rw [List.singleton_append, EvaluateQueueS_cons_ok hop]
      obtain ⟨Y, hY1, hY2⟩ := ih (.node (if c < 0 then '-' else '+') P (tailTermTree c p))
        (.term (rawTerms X ++ [(c, p)])) hstep (Or.inl ⟨_, rfl⟩)
      refine ⟨Y, ?_, ?_⟩
      · rw [hY1, rawTerms]
        simp
      · intro ts
        rw [polyTreeGo]
        exact hY2 ts

theorem evalS_treeOfPoly (c : ℚ) (p : ℤ) (rest : List Mono)
    (hdesc : ((c, p) :: rest).Pairwise (fun a b => b.2 < a.2)) :
    ∃ Y : SOperand, rawTerms Y = (c, p) :: rest ∧
      EvaluateQueueS (postfixOfP (treeOfPoly ((c, p) :: rest))) [] = .ok [Y] := by
  have hcond : (∃ u, signedTermVal c p = .term u) ∨ ∀ m ∈ rest, m.2 ≠ 0 := by
    by_cases hp : p = 0
    · right
      intro m hm
      have hlt := (List.pairwise_cons.mp hdesc).1 m hm
      omega
    · left
      exact ⟨_, by rw [signedTermVal, if_neg hp]⟩
  have hraw : rawTerms (signedTermVal c p) = [(c, p)] := by
    rw [signedTermVal]
    by_cases hp : p = 0
    · rw [if_pos hp, rawTerms, hp]
    · rw [if_neg hp, rawTerms]
  obtain ⟨Y, hY1, hY2⟩ := evalS_polyTreeGo rest (headTermTree c p) (signedTermVal c p)
    (evalS_headTermTree c p) hcond
  refine ⟨Y, ?_, ?_⟩
  · rw [hY1, hraw]
    rfl
  · have hnil := hY2 []
    rw [List.append_nil] at hnil
    rw [treeOfPoly, hnil]
    rfl

theorem filter_termBody (c : ℚ) (p : ℤ) :
    (termBodyChars c p).filter (fun ch => ch ≠ ' ') = termBodyChars c p := by
  refine List.filter_eq_self.mpr ?_
  intro a ha
  have h1 : a ∈ printP (tailTermTree c p) := by
    rw [printP_tailTermTree]
    exact ha
  simpa using printP_no_space _ (TreeOK_tailTermTree c p) a h1

theorem printP_polyTreeGo (rest : List Mono) : ∀ (acc : PTree),
    printP (polyTreeGo acc rest) =
      printP acc ++ (renderRest rest).filter (fun ch => ch ≠ ' ') := by
  induction rest with
  | nil =>
      intro acc
      rw [polyTreeGo, renderRest]
      simp
  | cons m rest ih =>
      obtain ⟨c, p⟩ := m
      intro acc
      rw [polyTreeGo, renderRest, ih, printP, printP_tailTermTree]
      rw [List.filter_append, List.filter_append, filter_termBody]
      by_cases hneg : c < 0
      · rw [if_pos hneg, if_pos hneg]
        have hsep : (([' ', '-', ' '] : List Char).filter (fun ch => ch ≠ ' ')) = ['-'] := rfl
        rw [hsep]
        simp
      · rw [if_neg hneg, if_neg hneg]
        have hsep : (([' ', '+', ' '] : List Char).filter (fun ch => ch ≠ ' ')) = ['+'] := rfl
        rw [hsep]
        simp

theorem filter_renderPoly (L : List Mono) :
    (renderPolyChars L).filter (fun ch => ch ≠ ' ') = printP (treeOfPoly L) := by
  cases L with
  | nil => rfl
  | cons m rest =>
      obtain ⟨c, p⟩ := m
      rw [treeOfPoly, renderPolyChars, printP_polyTreeGo, printP_headTermTree]
      rw [List.filter_append, List.filter_append, filter_termBody]
      by_cases hneg : c < 0
      · rw [if_pos hneg]
        have hsep : ((['-'] : List Char).filter (fun ch => ch ≠ ' ')) = ['-'] := rfl
        rw [hsep]
      · rw [if_neg hneg]
        simp

end ExpressionTree

end LibPlot2D

namespace LibPlot2D

namespace ExpressionTree

theorem SolveSymbolic_renderPoly (L : List Mono)
    (hdesc : L.Pairwise (fun a b => b.2 < a.2)) :
    SolveSymbolic (renderPoly L) = .ok (renderPoly (simplifyTerms L)) := by
  cases L with
  | nil => rfl
  | cons m rest =>
      obtain ⟨c, p⟩ := m
      obtain ⟨Y, hY1, hY2⟩ := evalS_treeOfPoly c p rest hdesc
      show (match ParseExpression
            ((renderPoly ((c, p) :: rest)).toList.filter (fun ch => ch ≠ ' ')) with
        | Except.error e => Except.error e
        | Except.ok post =>
            match EvaluateQueueS post [] with
            | Except.error e => Except.error e
            | Except.ok [op] => Except.ok (renderPoly (simplifyTerms (rawTerms op)))
            | Except.ok _ => Except.error SolveError.malformedExpression) = _
      rw [show (renderPoly ((c, p) :: rest)).toList = renderPolyChars ((c, p) :: rest) from rfl]
      rw [filter_renderPoly, ParseExpression_printP _ (TreeOK_treeOfPoly _)]
      show (match EvaluateQueueS (postfixOfP (treeOfPoly ((c, p) :: rest))) [] with
        | Except.error e => Except.error e
        | Except.ok [op] => Except.ok (renderPoly (simplifyTerms (rawTerms op)))
        | Except.ok _ => Except.error SolveError.malformedExpression) = _
      rw [hY2]
      show Except.ok (renderPoly (simplifyTerms (rawTerms Y))) = _
      rw [hY1]

theorem coefficientOf_cons_ne {c : ℚ} {p : ℤ} {rest : List Mono} {x : ℤ}
    (h : x ≠ p) : coefficientOf ((c, p) :: rest) x = coefficientOf rest x := by
  rw [coefficientOf, coefficientOf, List.filter_cons]
  have hfalse : (decide (((c, p) : Mono).2 = x)) = false := by
    simp [Ne.symm h]
  rw [hfalse]
  simp

theorem coefficientOf_cons_self (c : ℚ) (p : ℤ) {rest : List Mono}
    (h : ∀ m ∈ rest, m.2 ≠ p) : coefficientOf ((c, p) :: rest) p = c := by
  rw [coefficientOf]
  have hfilter : (((c, p) :: rest).filter (fun m => m.2 = p)) = [(c, p)] := by
    rw [List.filter_cons]
    have htrue : (decide (((c, p) : Mono).2 = p)) = true := by simp
    rw [htrue]
    simp only [if_true]
    rw [List.filter_eq_nil_iff.mpr]
    intro m hm
    simpa using h m hm
  rw [hfilter]
  show qadd c 0 = c
  rw [qadd_eq]
  exact add_zero c

theorem map_coefficientOf_eq (L : List Mono)
    (hdesc : L.Pairwise (fun a b => b.2 < a.2)) :
    (L.map Prod.snd).map (fun x => (coefficientOf L x, x)) = L := by
  induction L with
  | nil => rfl
  | cons m rest ih =>
      obtain ⟨c, p⟩ := m
      obtain ⟨hhead, htail⟩ := List.pairwise_cons.mp hdesc
      rw [List.map_cons, List.map_cons]
      have h1 : coefficientOf ((c, p) :: rest) p = c :=
        coefficientOf_cons_self c p (fun m hm => ne_of_lt (hhead m hm))
      rw [h1]
      have h2 : (rest.map Prod.snd).map (fun x => (coefficientOf ((c, p) :: rest) x, x)) =
          (rest.map Prod.snd).map (fun x => (coefficientOf rest x, x)) := by
        apply List.map_congr_left
        intro x hx
        obtain ⟨m2, hm2, rfl⟩ := List.mem_map.mp hx
        rw [coefficientOf_cons_ne (ne_of_lt (hhead m2 hm2))]
      rw [h2, ih htail]

theorem simplifyTerms_canonical_eq (L : List Mono)
    (hdesc : L.Pairwise (fun a b => b.2 < a.2)) (hnz : ∀ m ∈ L, m.1 ≠ 0) :
    simplifyTerms L = L := by
  have hpow : (L.map Prod.snd).Pairwise (fun a b : ℤ => b < a) :=
    List.pairwise_map.mpr hdesc
  have hnodup : (L.map Prod.snd).Nodup :=
    hpow.imp (fun hlt => ne_of_gt hlt)
  have hsorted : (L.map Prod.snd).Pairwise (fun a b : ℤ => b ≤ a) :=
    hpow.imp le_of_lt
  have hfind : FindPowersAndCoefficients L = L := by
    rw [FindPowersAndCoefficients, List.dedup_eq_self.mpr hnodup,
      List.Sorted.insertionSort_eq hsorted]
    exact map_coefficientOf_eq L hdesc
  rw [simplifyTerms, hfind, dropZeroTerms, List.filter_eq_self.mpr]
  intro m hm
  simpa using hnz m hm

theorem simplifyTerms_pairwise (L : List Mono) :
    (simplifyTerms L).Pairwise (fun a b : Mono => b.2 < a.2) := by
  rw [simplifyTerms, dropZeroTerms]
  apply List.Pairwise.filter
  rw [FindPowersAndCoefficients]
  haveI hTot : IsTotal ℤ (fun a b : ℤ => b ≤ a) := ⟨fun a b => le_total b a⟩
  haveI hTrans : IsTrans ℤ (fun a b : ℤ => b ≤ a) :=
    ⟨fun a b c hab hbc => le_trans hbc hab⟩
  have hsorted : (((L.map Prod.snd).dedup).insertionSort (fun a b => b ≤ a)).Pairwise
      (fun a b : ℤ => b ≤ a) := List.sorted_insertionSort _ _
  have hnodup : (((L.map Prod.snd).dedup).insertionSort (fun a b => b ≤ a)).Nodup :=
    ((List.perm_insertionSort _ _).nodup_iff).mpr (List.nodup_dedup _)
  have hlt : (((L.map Prod.snd).dedup).insertionSort (fun a b => b ≤ a)).Pairwise
      (fun a b : ℤ => b < a) :=
    (hsorted.and hnodup).imp (fun h => lt_of_le_of_ne h.1 (Ne.symm h.2))
  exact List.pairwise_map.mpr hlt

theorem simplifyTerms_nonzero (L : List Mono) : ∀ m ∈ simplifyTerms L, m.1 ≠ 0 := by
  intro m hm
  rw [simplifyTerms, dropZeroTerms] at hm
  simpa using (List.mem_filter.mp hm).2

/-- C3: symbolic-mode solving is idempotent and combines like terms:
whenever it succeeds, running it again on its own output returns that
output unchanged (same-power monomials having been merged by summed
coefficients and zero-coefficient terms dropped); concretely
`"s*s + 2*s"` canonicalizes to `"s^2 + 2*s"`, `"s - s"` to `"0"`, and
an empty term set always renders as `"0"`. -/
theorem symbolic_canonicalization_idempotent :
    (∀ e r : String, SolveSymbolic e = .ok r → SolveSymbolic r = .ok r) ∧
    SolveSymbolic "s*s + 2*s" = .ok "s^2 + 2*s" ∧
    SolveSymbolic "s - s" = .ok "0" ∧
    renderPoly [] = "0" := by
  refine ⟨?_, rfl, rfl, rfl⟩
  intro e r h
  have h' : (match ParseExpression (e.toList.filter (fun ch => ch ≠ ' ')) with
    | Except.error er => Except.error er
    | Except.ok post =>
        match EvaluateQueueS post [] with
        | Except.error er => Except.error er
        | Except.ok [op] => Except.ok (renderPoly (simplifyTerms (rawTerms op)))
        | Except.ok _ => Except.error SolveError.malformedExpression) = Except.ok r := h
  split at h'
  · exact absurd h' (by simp)
  · split at h'
    · exact absurd h' (by simp)
    · rename_i op heq
      have hr : r = renderPoly (simplifyTerms (rawTerms op)) := by
        have := h'
        simp only [Except.ok.injEq] at this
        exact this.symm
      rw [hr, SolveSymbolic_renderPoly _ (simplifyTerms_pairwise _),
        simplifyTerms_canonical_eq _ (simplifyTerms_pairwise _) (simplifyTerms_nonzero _)]
    · exact absurd h' (by simp)

/-- Witness for C3's idempotence clause at the concrete conversion of
`"s*s + 2*s"`. -/
theorem symbolic_canonicalization_idempotent_witness :
    SolveSymbolic "s^2 + 2*s" = .ok "s^2 + 2*s" :=
  symbolic_canonicalization_idempotent.1 "s*s + 2*s" "s^2 + 2*s" rfl

end ExpressionTree

end LibPlot2D
